import Mathlib

set_option maxHeartbeats 1000000

namespace Scribe

/-- Unicode code points with the White_Space property, as tested by the Rust
standard library predicate used by split_whitespace and str::trim in the
source (char::is_whitespace). -/
def rustIsWhitespace (c : Char) : Bool :=
  (0x09 ≤ c.toNat && c.toNat ≤ 0x0D) || c.toNat == 0x20 || c.toNat == 0x85 ||
  c.toNat == 0xA0 || c.toNat == 0x1680 || (0x2000 ≤ c.toNat && c.toNat ≤ 0x200A) ||
  c.toNat == 0x2028 || c.toNat == 0x2029 || c.toNat == 0x202F || c.toNat == 0x205F ||
  c.toNat == 0x3000

/-- Tokenizer loop behind the split_whitespace model: cur carries the run of
non-whitespace characters read so far, in reverse. -/
def splitWSAux : List Char → List Char → List (List Char)
  | [], cur => if cur = [] then [] else [cur.reverse]
  | c :: rest, cur =>
    if rustIsWhitespace c then
      if cur = [] then splitWSAux rest [] else cur.reverse :: splitWSAux rest []
    else splitWSAux rest (c :: cur)

/-- Model of Rust str::split_whitespace on a list of characters: maximal runs
of non-whitespace characters, in order, empty runs discarded. -/
def splitWS (l : List Char) : List (List Char) := splitWSAux l []

/-- Tokens joined by single ASCII spaces. -/
def joinTok : List (List Char) → List Char
  | [] => []
  | t :: ts =>
    match ts with
    | [] => t
    | _ :: _ => t ++ ' ' :: joinTok ts

/-- Model of Rust str::trim: Unicode whitespace stripped from both ends. -/
def trimWS (l : List Char) : List Char :=
  (((l.dropWhile rustIsWhitespace).reverse).dropWhile rustIsWhitespace).reverse

/-- Whitespace normalisation named by the specification: runs of whitespace
collapse to single spaces and the ends are stripped. -/
def normalizeWS (l : List Char) : List Char := joinTok (splitWS l)

/-- Trie node from src/trie/mod.rs: an optional terminal id and children
keyed by the next character. The children HashMap is modelled as an
association list with first-match lookup. -/
inductive Node where
  | mk (num : Option Nat) (children : List (Char × Node))

/-- Terminal id of a node. -/
def Node.num : Node → Option Nat
  | .mk n _ => n

/-- Children of a node. -/
def Node.children : Node → List (Char × Node)
  | .mk _ cs => cs

/-- Node::new. -/
def Node.new : Node := .mk none []

/-- Lookup in the children map (HashMap::get). -/
def lookupChild : List (Char × Node) → Char → Option Node
  | [], _ => none
  | (d, n) :: rest, c => if c = d then some n else lookupChild rest c

/-- Replacement of the child stored at an existing key: the write-back half
of HashMap::entry used by Node::push. -/
def updateChild : List (Char × Node) → Char → Node → List (Char × Node)
  | [], _, _ => []
  | (e, nd) :: rest, c, x =>
    if e = c then (c, x) :: updateChild rest c x else (e, nd) :: updateChild rest c x

/-- Node::push: walks the character path, creating missing nodes with
Node::new, and marks the final node with the id. -/
def Node.push : Node → List Char → Nat → Node
  | .mk _ cs, [], k => .mk (some k) cs
  | .mk nm cs, c :: rest, k =>
    match lookupChild cs c with
    | some child => .mk nm (updateChild cs c (Node.push child rest k))
    | none => .mk nm (cs ++ [(c, Node.push Node.new rest k)])

/-- Node::find_match: exact lookup of a word, returning its terminal id. -/
def Node.find_match : Node → List Char → Option Nat
  | n, [] => n.num
  | n, c :: rest =>
    match lookupChild n.children c with
    | none => none
    | some child => Node.find_match child rest

mutual

/-- Number of nodes in a subtree, used as a termination measure. -/
def Node.size : Node → Nat
  | .mk _ cs => 1 + sizeCh cs

/-- Total size of the nodes of a children list. -/
def sizeCh : List (Char × Node) → Nat
  | [] => 0
  | (_, n) :: rest => Node.size n + sizeCh rest

end

/-- Finite set holding an optional id. -/
def optSet : Option Nat → Finset ℕ
  | none => ∅
  | some n => {n}

mutual

/-- Node::append_inner: ids of all strict descendants of a node, as a set. -/
def Node.append_inner : Node → Finset ℕ
  | .mk _ cs => appendInnerCh cs

/-- Contribution of a children list to append_inner: each child's own id and,
recursively, its descendants. -/
def appendInnerCh : List (Char × Node) → Finset ℕ
  | [] => ∅
  | (_, n) :: rest => (optSet n.num ∪ Node.append_inner n) ∪ appendInnerCh rest

end

/-- Child nodes of a node, left to right. -/
def childNodes (n : Node) : List Node := n.children.map (fun p => p.2)

/-- Terminal ids found at one breadth-first level. -/
def levelNums (ns : List Node) : Finset ℕ := ns.foldr (fun n acc => optSet n.num ∪ acc) ∅

/-- Next breadth-first level: all children of the current level. -/
def nextLevel (ns : List Node) : List Node := (ns.map childNodes).flatten

/-- Total size of a list of nodes. -/
def listSize (ns : List Node) : Nat := (ns.map Node.size).sum

theorem size_pos (n : Node) : 1 ≤ Node.size n := by
  cases n with
  | mk nm cs => simp [Node.size]

theorem listSize_append (a b : List Node) : listSize (a ++ b) = listSize a + listSize b := by
  simp [listSize]

theorem listSize_childNodes (n : Node) : listSize (childNodes n) = Node.size n - 1 := by
  cases n with
  | mk nm cs =>
    simp only [childNodes, Node.children, Node.size, listSize, Nat.add_sub_cancel_left]
    induction cs with
    | nil => simp [sizeCh]
    | cons p rest ih =>
      cases p with
      | mk c m =>
        simp only [List.map_cons, List.sum_cons, sizeCh, List.map_map] at ih ⊢
        rw [ih]

theorem listSize_nextLevel (ns : List Node) :
    listSize (nextLevel ns) + ns.length = listSize ns := by
  induction ns with
  | nil => simp [nextLevel, listSize]
  | cons n rest ih =>
    have h1 : nextLevel (n :: rest) = childNodes n ++ nextLevel rest := by
      simp [nextLevel]
    rw [h1, listSize_append, listSize_childNodes]
    have h2 := size_pos n
    simp only [List.length_cons, listSize, List.map_cons, List.sum_cons]
    simp only [listSize] at ih
    omega

/-- Breadth-first queue loop of Node::collect_numbers: while the level is not
empty, record every terminal id at the level, then descend to all children. -/
def bfs : List Node → Finset ℕ
  | [] => ∅
  | n :: rest => levelNums (n :: rest) ∪ bfs (nextLevel (n :: rest))
termination_by ns => listSize ns
decreasing_by
  have h := listSize_nextLevel (n :: rest)
  simp only [List.length_cons] at h
  omega

/-- Node::collect_numbers: the node's own terminal id plus a breadth-first
collection over all levels below it. -/
def Node.collect_numbers (n : Node) : Finset ℕ := optSet n.num ∪ bfs (childNodes n)

/-- Node::find_prefix (findPref here): walks the prefix path and, when it
exists, collects every terminal id at or below its end; on a missing edge it
returns the set collected so far, which is empty. -/
def Node.findPref : Node → List Char → Finset ℕ
  | n, [] => n.collect_numbers
  | n, c :: rest =>
    match lookupChild n.children c with
    | none => ∅
    | some child => Node.findPref child rest

mutual

/-- All pairs of an interned word (a path from this node ending in a set
terminal) and that terminal id. -/
def Node.terminals : Node → List (List Char × Nat)
  | .mk nm cs => (match nm with | none => [] | some k => [([], k)]) ++ terminalsCh cs

/-- Terminal words contributed by a children list, each path extended with
its edge character. -/
def terminalsCh : List (Char × Node) → List (List Char × Nat)
  | [] => []
  | (c, n) :: rest => (Node.terminals n).map (fun p => (c :: p.1, p.2)) ++ terminalsCh rest

end

mutual

/-- Well-formedness of the HashMap model: the keys of every children list are
pairwise distinct. Every trie the program builds satisfies it. -/
def Node.wf : Node → Bool
  | .mk _ cs => decide ((cs.map (fun p => p.1)).Nodup) && wfCh cs

/-- Well-formedness of every node of a children list. -/
def wfCh : List (Char × Node) → Bool
  | [] => true
  | (_, n) :: rest => Node.wf n && wfCh rest

end

/-- UTF-8 encoded length of a character. -/
def utf8Len (c : Char) : Nat :=
  if c.toNat < 0x80 then 1 else if c.toNat < 0x800 then 2
  else if c.toNat < 0x10000 then 3 else 4

theorem utf8Len_pos (c : Char) : 1 ≤ utf8Len c := by
  unfold utf8Len
  split
  · omega
  · split
    · omega
    · split
      · omega
      · omega

/-- Byte-based slicing of a character list: drops the first k bytes of its
UTF-8 encoding. Returns none when k overruns the text or falls strictly
inside a character, the two conditions under which the Rust slice s[k..]
panics. -/
def byteDrop : List Char → Nat → Option (List Char)
  | s, 0 => some s
  | [], _ + 1 => none
  | c :: cs, k + 1 =>
    if utf8Len c ≤ k + 1 then byteDrop cs (k + 1 - utf8Len c) else none

theorem byteDrop_length {s t : List Char} {k : Nat} (h : byteDrop s (k + 1) = some t) :
    t.length < s.length := by
  induction s generalizing k with
  | nil => simp [byteDrop] at h
  | cons c cs ih =>
    simp only [byteDrop] at h
    split at h
    · rcases hk : k + 1 - utf8Len c with _ | m
      · rw [hk] at h
        simp only [byteDrop, Option.some.injEq] at h
        subst h
        simp
      · rw [hk] at h
        have := ih h
        simp only [List.length_cons]
        omega
    · exact absurd h (by simp)

/-- First character of the Rust char::to_uppercase sequence. The model
restricts Unicode simple case mapping to the ASCII fold implemented by
Char.toUpper; every definition and claim in this file uses the same fold on
both sides of each statement. -/
def rustUpper (c : Char) : Char := c.toUpper

/-- First character of the Rust char::to_lowercase sequence, with the same
ASCII restriction as rustUpper. -/
def rustLower (c : Char) : Char := c.toLower

mutual

/-- Node::find_prefix_case_insensitive (findPrefCI): a none result models a
panic of the byte slice s[idx+1..] taken inside the loop, which indexes the
string at the character position idx interpreted as a byte offset. -/
def Node.findPrefCI (n : Node) (s : List Char) : Option (Finset ℕ) :=
  ciLoop n s 0 s ∅
termination_by (s.length, 2 * s.length + 2)
decreasing_by
  exact Prod.Lex.right _ (by omega)

/-- The for loop of find_prefix_case_insensitive: s is the whole string the
loop enumerates, idx the current character index, rem the characters not yet
visited and acc the result set built so far. After the loop, append_inner
runs only when the whole string is empty. -/
def ciLoop (n : Node) (s : List Char) (idx : Nat) (rem : List Char) (acc : Finset ℕ) :
    Option (Finset ℕ) :=
  match rem with
  | [] => some (if s = [] then acc ∪ Node.append_inner n else acc)
  | c :: rest =>
    match ciBranch n (rustUpper c) s idx acc with
    | none => none
    | some acc1 =>
      match ciBranch n (rustLower c) s idx acc1 with
      | none => none
      | some acc2 => ciLoop n s (idx + 1) rest acc2
termination_by (s.length, 2 * rem.length + 1)
decreasing_by
  · exact Prod.Lex.right _ (by simp only [List.length_cons]; omega)
  · exact Prod.Lex.right _ (by simp only [List.length_cons]; omega)
  · exact Prod.Lex.right _ (by simp only [List.length_cons]; omega)

/-- One folded branch of the loop body: when a child exists under the folded
character, record its terminal id and search it against the byte slice
s[idx+1..]. -/
def ciBranch (n : Node) (c : Char) (s : List Char) (idx : Nat) (acc : Finset ℕ) :
    Option (Finset ℕ) :=
  match lookupChild n.children c with
  | none => some acc
  | some child =>
    match h : byteDrop s (idx + 1) with
    | none => none
    | some tail =>
      match Node.findPrefCI child tail with
      | none => none
      | some sub => some ((acc ∪ optSet child.num) ∪ sub)
termination_by (s.length, 0)
decreasing_by
  exact Prod.Lex.left _ _ (byteDrop_length h)

end

/-- Association list lookup modelling the word to number HashMap. -/
def lookupW : List (List Char × Nat) → List Char → Option Nat
  | [], _ => none
  | (w, n) :: rest, t => if t = w then some n else lookupW rest t

/-- Association list lookup modelling the number to word HashMap. -/
def lookupN : List (Nat × List Char) → Nat → Option (List Char)
  | [], _ => none
  | (n, w) :: rest, k => if k = n then some w else lookupN rest k

/-- HashMap::insert on the word map: replace the value at an existing key,
append a fresh entry otherwise. -/
def insertW (m : List (List Char × Nat)) (w : List Char) (n : Nat) : List (List Char × Nat) :=
  if (lookupW m w).isSome then m.map (fun p => if p.1 = w then (w, n) else p)
  else m ++ [(w, n)]

/-- HashMap::insert on the number map. -/
def insertN (m : List (Nat × List Char)) (n : Nat) (w : List Char) : List (Nat × List Char) :=
  if (lookupN m n).isSome then m.map (fun p => if p.1 = n then (n, w) else p)
  else m ++ [(n, w)]

/-- Dictionary state of src/dictionary/mod.rs. The Filter capability is
instantiated with the trie Node, as main.rs does. -/
structure Module where
  words_to_numbers : List (List Char × Nat)
  nums_to_words : List (Nat × List Char)
  last_available_number : Nat
  filter : Node

/-- Module::new applied to a fresh trie root. -/
def Module.new : Module := ⟨[], [], 0, Node.new⟩

/-- One step of Module::serialize: look the token up, minting a fresh id on
a miss; a mint increments the u32 counter, inserts into both maps and pushes
the token into the trie. The counter is a u32 in the source, so the
increment wraps modulo 2 to the 32 (the release-build semantics of the
overflow; debug builds panic instead). -/
def serializeToken (m : Module) (tok : List Char) : Module × Nat :=
  match lookupW m.words_to_numbers tok with
  | some n => (m, n)
  | none =>
    (⟨insertW m.words_to_numbers tok ((m.last_available_number + 1) % 2 ^ 32),
      insertN m.nums_to_words ((m.last_available_number + 1) % 2 ^ 32) tok,
      (m.last_available_number + 1) % 2 ^ 32,
      Node.push m.filter tok ((m.last_available_number + 1) % 2 ^ 32)⟩,
     (m.last_available_number + 1) % 2 ^ 32)

/-- The token fold of Module::serialize, keeping token order. -/
def serializeTokens : Module → List (List Char) → Module × List Nat
  | m, [] => (m, [])
  | m, t :: ts =>
    ((serializeTokens (serializeToken m t).1 ts).1,
     (serializeToken m t).2 :: (serializeTokens (serializeToken m t).1 ts).2)

/-- Module::serialize: split the log on whitespace and intern every token in
order. -/
def Module.serialize (m : Module) (log : List Char) : Module × List Nat :=
  serializeTokens m (splitWS log)

/-- Word rendered by Module::deserialize for one id: the interned word, or
the four-byte placeholder for an id missing from the map. -/
def wordOf (m : Module) (k : Nat) : List Char :=
  match lookupN m.nums_to_words k with
  | some w => w
  | none => ['[', '?', ']']

/-- Module::deserialize: each word followed by one space, then str::trim. -/
def Module.deserialize (m : Module) (buffer : List Nat) : List Char :=
  trimWS ((buffer.map (fun k => wordOf m k ++ [' '])).flatten)

/-- The nums_from_words pass: inserts the reversed pairs into the existing
nums_to_words map in iteration order, without clearing it first. -/
def numsFromWords (acc : List (Nat × List Char)) : List (List Char × Nat) → List (Nat × List Char)
  | [] => acc
  | (w, n) :: rest => numsFromWords (insertN acc n w) rest

/-- Recomputation of last_available_number done by Module::set_map_from: a
fold from zero keeping the largest value seen. -/
def maxNum (l : List (List Char × Nat)) : Nat :=
  l.foldl (fun a p => if p.2 > a then p.2 else a) 0

/-- Module::set_map_from: installs the given map, recomputes the counter
from it alone, and extends nums_to_words via numsFromWords. The filter field
is not touched by the source function. -/
def Module.set_map_from (m : Module) (mp : List (List Char × Nat)) : Module :=
  ⟨mp, numsFromWords m.nums_to_words mp, maxNum mp, m.filter⟩

/-- Module::filter_prefixed: keep, in order, every buffer holding at least
one id from the prefix search of the filter. -/
def Module.filter_prefixed (m : Module) (word : List Char) (buffers : List (List Nat)) :
    List (List Nat) :=
  buffers.foldl
    (fun acc buf =>
      if buf.any (fun k => decide (k ∈ Node.findPref m.filter word)) then acc ++ [buf] else acc)
    []

/-- The id set built by Module::filter_word from exact word lookups; words
missing from the map contribute nothing. -/
def wordNumSet (m : Module) (words : List (List Char)) : Finset ℕ :=
  words.foldl
    (fun s w =>
      match lookupW m.words_to_numbers w with
      | some n => insert n s
      | none => s)
    ∅

/-- Module::filter_word: keep, in order, every buffer holding at least one
id from the exact-lookup set. -/
def Module.filter_word (m : Module) (words : List (List Char)) (buffers : List (List Nat)) :
    List (List Nat) :=
  buffers.foldl
    (fun acc buf =>
      if buf.any (fun k => decide (k ∈ wordNumSet m words)) then acc ++ [buf] else acc)
    []

/-- One line written by Module::save_schema_to_file for a mapping entry. -/
def schemaLine (w : List Char) (n : Nat) : List Char :=
  w ++ [' ', ':', ' '] ++ Nat.toDigits 10 n ++ ['\n']

/-- Module::save_schema_to_file, modelled by the content it writes: one line
per mapping entry, written unconditionally. The only error paths of the
source function are filesystem failures, which are outside the model, so the
pure function always returns ok and never inspects the tokens. -/
def Module.save_schema_to_file (m : Module) : Except (List Char) (List (List Char)) :=
  Except.ok (m.words_to_numbers.map (fun p => schemaLine p.1 p.2))

/-- Little-endian 32-bit word from four bytes, the layout produced by
to_ne_bytes on the little-endian targets the service runs on. -/
def u32FromBytes (b0 b1 b2 b3 : Nat) : Nat :=
  b0 + 256 * b1 + 65536 * b2 + 16777216 * b3

/-- The blob decoding loop of Warehouse::get_logs and WarehouseSql::find_logs:
bytes i, i+1, i+2 and i+3 are read for every index i stepping by four below
the blob length, with no bounds check; none models the index-out-of-bounds
panic that fires when one, two or three bytes remain. -/
def decodeLogBlob : List Nat → Option (List Nat)
  | [] => some []
  | b0 :: b1 :: b2 :: b3 :: rest =>
    match decodeLogBlob rest with
    | none => none
    | some d => some (u32FromBytes b0 b1 b2 b3 :: d)
  | _ => none

/-- The row loop of the log scan: every record blob is decoded in turn and a
panic anywhere aborts the whole scan with no partial result. -/
def findLogsRows : List (List Nat) → Option (List (List Nat))
  | [] => some []
  | blob :: rest =>
    match decodeLogBlob blob with
    | none => none
    | some d =>
      match findLogsRows rest with
      | none => none
      | some ds => some (d :: ds)

/-- Atomic steps of the save_log handler in main.rs, for the lock-scope
analysis. -/
inductive SaveLogStep where
  | acquireDictWrite
  | serializeLog
  | awaitInsertLog
  | releaseDictWrite
deriving DecidableEq

/-- Event order of the save_log handler transcribed from main.rs: the write
guard is taken, serialize runs, insert_log is awaited, and the guard is
dropped only when the handler scope ends, after the await; the handler body
contains no earlier drop of the guard. -/
def saveLogSteps : List SaveLogStep :=
  [SaveLogStep.acquireDictWrite, SaveLogStep.serializeLog,
   SaveLogStep.awaitInsertLog, SaveLogStep.releaseDictWrite]

/-- Enumeration of a token list with ids assigned in order starting at k. -/
def enum1 : List (List Char) → Nat → List (List Char × Nat)
  | [], _ => []
  | w :: ws, k => (w, k) :: enum1 ws (k + 1)

/-- Tokens in order of first appearance, continuing a given history. -/
def firstSeenAux (acc : List (List Char)) : List (List Char) → List (List Char)
  | [] => acc
  | t :: ts => if t ∈ acc then firstSeenAux acc ts else firstSeenAux (acc ++ [t]) ts

/-- All tokens of a sequence of submitted texts, in submission order. -/
def tokensOfTrace (texts : List (List Char)) : List (List Char) :=
  (texts.map splitWS).flatten

/-- The dictionary produced by encoding a sequence of texts in order,
starting from a fresh Module. -/
def runTrace (texts : List (List Char)) : Module :=
  texts.foldl (fun m log => (Module.serialize m log).1) Module.new

/-- Relation between a dictionary and the tokens seen so far: the word map
enumerates the first-seen tokens with ids from one, and the counter equals
the number of distinct tokens. -/
def TraceInv (m : Module) (seen : List (List Char)) : Prop :=
  m.words_to_numbers = enum1 seen 1 ∧ m.last_available_number = seen.length

/-- Internal coherence of a dictionary: the inverse map answers every lookup
that the word map made, and every key of the inverse map is at most the
counter. Every state the program reaches through new and serialize
satisfies it. -/
def DictInv (m : Module) : Prop :=
  (∀ tok n, lookupW m.words_to_numbers tok = some n →
    lookupN m.nums_to_words n = some tok) ∧
  (∀ n w, lookupN m.nums_to_words n = some w → n ≤ m.last_available_number)

/-- Coherence of the dictionary with its trie: every interned word is found
back in the trie with its id. -/
def TrieCoherent (m : Module) : Prop :=
  ∀ tok n, lookupW m.words_to_numbers tok = some n →
    Node.find_match m.filter tok = some n

/-- Union of the node own id and all descendant ids; collect_numbers and
append_inner are both expressed through it. -/
def descSet (n : Node) : Finset ℕ := optSet n.num ∪ Node.append_inner n

/-- Fold of descSet over a list of nodes. -/
def foldDesc (ns : List Node) : Finset ℕ := ns.foldr (fun m acc => descSet m ∪ acc) ∅

/-- All case-foldings of a string: every character independently replaced by
the first character of its uppercase or of its lowercase folding, the two
children the case-insensitive search explores at each position. -/
def foldings : List Char → List (List Char)
  | [] => [[]]
  | c :: rest =>
    ((foldings rest).map (fun f => rustUpper c :: f)) ++
    ((foldings rest).map (fun f => rustLower c :: f))

/-- Union over all case-foldings of the prefix of the case-sensitive prefix
search, the set the claim equates with find_prefix_ci. -/
def foldingsUnion (n : Node) (s : List Char) : Finset ℕ :=
  (foldings s).foldr (fun f acc => Node.findPref n f ∪ acc) ∅

theorem appendInnerCh_foldDesc : ∀ cs : List (Char × Node),
    appendInnerCh cs = foldDesc (cs.map (fun p => p.2)) := by
  intro cs
  induction cs with
  | nil => rfl
  | cons p rest ih =>
    cases p with
    | mk c m => simp only [appendInnerCh, List.map_cons, foldDesc, List.foldr_cons, descSet, ih]

theorem append_inner_eq_foldDesc (n : Node) :
    Node.append_inner n = foldDesc (childNodes n) := by
  cases n with
  | mk nm cs => simp only [Node.append_inner, childNodes, Node.children, appendInnerCh_foldDesc]

theorem foldDesc_append : ∀ a b : List Node, foldDesc (a ++ b) = foldDesc a ∪ foldDesc b := by
  intro a
  induction a with
  | nil => intro b; simp [foldDesc]
  | cons n rest ih =>
    intro b
    simp only [List.cons_append, foldDesc, List.foldr_cons] at ih ⊢
    rw [ih b, Finset.union_assoc]

theorem levelNums_cons (n : Node) (rest : List Node) :
    levelNums (n :: rest) = optSet n.num ∪ levelNums rest := rfl

theorem foldDesc_level : ∀ ns : List Node,
    levelNums ns ∪ foldDesc (nextLevel ns) = foldDesc ns := by
  intro ns
  induction ns with
  | nil => simp [levelNums, nextLevel, foldDesc]
  | cons n rest ih =>
    have h1 : nextLevel (n :: rest) = childNodes n ++ nextLevel rest := by simp [nextLevel]
    rw [levelNums_cons, h1, foldDesc_append, ← append_inner_eq_foldDesc]
    have hfold : foldDesc (n :: rest) = descSet n ∪ foldDesc rest := rfl
    rw [hfold]
    have hx := Finset.ext_iff.mp ih
    apply Finset.ext
    intro x
    have hxx := hx x
    simp only [Finset.mem_union, descSet] at hxx ⊢
    tauto

theorem bfs_eq_foldDesc_aux : ∀ (k : Nat) (ns : List Node), listSize ns ≤ k →
    bfs ns = foldDesc ns := by
  intro k
  induction k with
  | zero =>
    intro ns h
    cases ns with
    | nil => simp [bfs, foldDesc]
    | cons n rest =>
      have := size_pos n
      simp only [listSize, List.map_cons, List.sum_cons] at h
      omega
  | succ k ih =>
    intro ns h
    cases ns with
    | nil => simp [bfs, foldDesc]
    | cons n rest =>
      have hlt := listSize_nextLevel (n :: rest)
      simp only [List.length_cons] at hlt
      have hsz : listSize (nextLevel (n :: rest)) ≤ k := by omega
      rw [bfs]
      rw [ih (nextLevel (n :: rest)) hsz, foldDesc_level]

theorem bfs_eq_foldDesc (ns : List Node) : bfs ns = foldDesc ns :=
  bfs_eq_foldDesc_aux (listSize ns) ns le_rfl

theorem collect_numbers_eq (n : Node) : Node.collect_numbers n = descSet n := by
  unfold Node.collect_numbers descSet
  rw [bfs_eq_foldDesc, ← append_inner_eq_foldDesc]

theorem byteDrop_zero (s : List Char) : byteDrop s 0 = some s := by
  cases s with
  | nil => rfl
  | cons c cs => rfl

theorem byteDrop_succ_cons {c : Char} {l t : List Char} {k : Nat}
    (h : byteDrop (c :: l) (k + 1) = some t) :
    utf8Len c ≤ k + 1 ∧ byteDrop l (k + 1 - utf8Len c) = some t := by
  by_cases hle : utf8Len c ≤ k + 1
  · simp only [byteDrop, hle, if_true] at h
    exact ⟨hle, h⟩
  · simp only [byteDrop, hle, if_false] at h
    exact Option.noConfusion h

theorem byteDrop_one_cons {c : Char} {l t : List Char}
    (h : byteDrop (c :: l) (0 + 1) = some t) : t = l := by
  obtain ⟨hle, hrest⟩ := byteDrop_succ_cons h
  have hpos := utf8Len_pos c
  have h1 : utf8Len c = 1 := by omega
  rw [h1] at hrest
  simpa [byteDrop] using hrest.symm

theorem ciBranch_none_case {n : Node} {c : Char} {s : List Char} {idx : Nat} {acc : Finset ℕ}
    (h : lookupChild n.children c = none) : ciBranch n c s idx acc = some acc := by
  unfold ciBranch
  split
  · rfl
  · rename_i child hlu
    rw [h] at hlu
    exact Option.noConfusion hlu

theorem ciBranch_some_case {n : Node} {c : Char} {s : List Char} {idx : Nat} {acc : Finset ℕ}
    {child : Node} {tail : List Char} {sub : Finset ℕ}
    (h1 : lookupChild n.children c = some child)
    (h2 : byteDrop s (idx + 1) = some tail)
    (h3 : Node.findPrefCI child tail = some sub) :
    ciBranch n c s idx acc = some ((acc ∪ optSet child.num) ∪ sub) := by
  unfold ciBranch
  split
  · rename_i hlu
    rw [h1] at hlu
    exact Option.noConfusion hlu
  · rename_i child2 hlu
    rw [h1] at hlu
    injection hlu with hlu2
    subst hlu2
    split
    · rename_i heq
      rw [h2] at heq
      exact Option.noConfusion heq
    · rename_i tail2 heq
      rw [h2] at heq
      injection heq with heq2
      subst heq2
      split
      · rename_i hfp
        rw [h3] at hfp
        exact Option.noConfusion hfp
      · rename_i sub2 hfp
        rw [h3] at hfp
        injection hfp with hfp2
        subst hfp2
        rfl

theorem ciLoop_nil (n : Node) (s : List Char) (idx : Nat) (acc : Finset ℕ) :
    ciLoop n s idx [] acc = some (if s = [] then acc ∪ Node.append_inner n else acc) := by
  unfold ciLoop
  rfl

theorem ciLoop_cons_eq {n : Node} {s : List Char} {idx : Nat} {c : Char} {rest : List Char}
    {acc a1 a2 : Finset ℕ}
    (h1 : ciBranch n (rustUpper c) s idx acc = some a1)
    (h2 : ciBranch n (rustLower c) s idx a1 = some a2) :
    ciLoop n s idx (c :: rest) acc = ciLoop n s (idx + 1) rest a2 := by
  rw [ciLoop.eq_def]
  dsimp only
  rw [h1]
  dsimp only
  rw [h2]

theorem findPrefCI_eq_ciLoop (n : Node) (s : List Char) :
    Node.findPrefCI n s = ciLoop n s 0 s ∅ := by
  unfold Node.findPrefCI
  rfl

theorem findPrefCI_nil (n : Node) : Node.findPrefCI n [] = some (Node.append_inner n) := by
  rw [findPrefCI_eq_ciLoop, ciLoop_nil]
  simp

theorem ciBranch_mono {n : Node} {c : Char} {s : List Char} {idx : Nat} {acc r : Finset ℕ}
    (h : ciBranch n c s idx acc = some r) : acc ⊆ r := by
  unfold ciBranch at h
  split at h
  · injection h with h2
    subst h2
    exact Finset.Subset.refl acc
  · split at h
    · exact Option.noConfusion h
    · split at h
      · exact Option.noConfusion h
      · injection h with h2
        subst h2
        intro x hx
        simp only [Finset.mem_union]
        left
        left
        exact hx

theorem ciLoop_mono : ∀ (rem : List Char) (n : Node) (s : List Char) (idx : Nat)
    (acc r : Finset ℕ), ciLoop n s idx rem acc = some r → acc ⊆ r := by
  intro rem
  induction rem with
  | nil =>
    intro n s idx acc r h
    rw [ciLoop_nil] at h
    injection h with h2
    subst h2
    split
    · intro x hx
      simp only [Finset.mem_union]
      left
      exact hx
    · exact Finset.Subset.refl acc
  | cons c rest ih =>
    intro n s idx acc r h
    unfold ciLoop at h
    split at h
    · exact Option.noConfusion h
    · rename_i a1 hb1
      split at h
      · exact Option.noConfusion h
      · rename_i a2 hb2
        exact (ciBranch_mono hb1).trans ((ciBranch_mono hb2).trans (ih n s (idx + 1) a2 r h))

theorem ciLoop_cons_extract {n : Node} {s : List Char} {idx : Nat} {c : Char}
    {rest : List Char} {acc r : Finset ℕ} (h : ciLoop n s idx (c :: rest) acc = some r) :
    ∃ a1 a2, ciBranch n (rustUpper c) s idx acc = some a1 ∧
      ciBranch n (rustLower c) s idx a1 = some a2 ∧
      ciLoop n s (idx + 1) rest a2 = some r := by
  unfold ciLoop at h
  split at h
  · exact Option.noConfusion h
  · rename_i a1 hb1
    split at h
    · exact Option.noConfusion h
    · rename_i a2 hb2
      exact ⟨a1, a2, hb1, hb2, h⟩

theorem ciBranch_cases {n : Node} {c : Char} {s : List Char} {idx : Nat} {acc r : Finset ℕ}
    (h : ciBranch n c s idx acc = some r) :
    (lookupChild n.children c = none ∧ r = acc) ∨
    (∃ child tail sub, lookupChild n.children c = some child ∧
      byteDrop s (idx + 1) = some tail ∧ Node.findPrefCI child tail = some sub ∧
      r = (acc ∪ optSet child.num) ∪ sub) := by
  unfold ciBranch at h
  split at h
  · rename_i hlu
    injection h with h2
    exact Or.inl ⟨hlu, h2.symm⟩
  · rename_i child hlu
    split at h
    · exact Option.noConfusion h
    · rename_i tail hbd
      split at h
      · exact Option.noConfusion h
      · rename_i sub hfp
        injection h with h2
        exact Or.inr ⟨child, tail, sub, hlu, hbd, hfp, h2.symm⟩

theorem mem_foldings_cons {f : List Char} {c : Char} {rest : List Char} :
    f ∈ foldings (c :: rest) ↔
      ∃ fr ∈ foldings rest, f = rustUpper c :: fr ∨ f = rustLower c :: fr := by
  simp only [foldings, List.mem_append, List.mem_map]
  constructor
  · intro h
    rcases h with ⟨fr, hfr, heq⟩ | ⟨fr, hfr, heq⟩
    · exact ⟨fr, hfr, Or.inl heq.symm⟩
    · exact ⟨fr, hfr, Or.inr heq.symm⟩
  · intro ⟨fr, hfr, heq⟩
    rcases heq with heq | heq
    · exact Or.inl ⟨fr, hfr, heq.symm⟩
    · exact Or.inr ⟨fr, hfr, heq.symm⟩

theorem mem_foldings_nil {f : List Char} : f ∈ foldings [] ↔ f = [] := by
  simp [foldings]

theorem foldr_union_subset {g : List Char → Finset ℕ} {r : Finset ℕ} :
    ∀ l : List (List Char), (∀ f ∈ l, g f ⊆ r) →
    l.foldr (fun f acc => g f ∪ acc) ∅ ⊆ r := by
  intro l
  induction l with
  | nil => intro _; simp
  | cons f rest ih =>
    intro h
    simp only [List.foldr_cons]
    intro x hx
    rcases Finset.mem_union.mp hx with hx | hx
    · exact h f (by simp) hx
    · exact ih (fun u hu => h u (List.mem_cons_of_mem f hu)) hx

theorem ciSuper : ∀ (L : Nat) (s : List Char), s.length ≤ L → s ≠ [] →
    ∀ (n : Node) (r : Finset ℕ), Node.findPrefCI n s = some r →
    ∀ f ∈ foldings s, Node.findPref n f ⊆ r := by
  intro L
  induction L with
  | zero =>
    intro s hs hne
    cases s with
    | nil => exact absurd rfl hne
    | cons a b => simp at hs
  | succ L ih =>
    intro s hs hne n r h f hf
    cases s with
    | nil => exact absurd rfl hne
    | cons c srest =>
      rw [findPrefCI_eq_ciLoop] at h
      obtain ⟨a1, a2, hb1, hb2, hloop⟩ := ciLoop_cons_extract h
      have ha2r : a2 ⊆ r := ciLoop_mono srest n (c :: srest) (0 + 1) a2 r hloop
      have ha1a2 : a1 ⊆ a2 := ciBranch_mono hb2
      obtain ⟨fr, hfr, hfeq⟩ := mem_foldings_cons.mp hf
      have hkey : ∀ (f0 : Char) (accx rx : Finset ℕ),
          ciBranch n f0 (c :: srest) 0 accx = some rx → rx ⊆ r →
          (f = f0 :: fr) → Node.findPref n f ⊆ r := by
        intro f0 accx rx hbr hrx hfeq0
        subst hfeq0
        rcases ciBranch_cases hbr with ⟨hlu, _⟩ | ⟨child, tail, sub, hlu, hbd, hfp, hreq⟩
        · intro x hx
          simp only [Node.findPref, hlu] at hx
          exact absurd hx (Finset.not_mem_empty x)
        · have htail : tail = srest := byteDrop_one_cons hbd
          rw [htail] at hfp
          have hsubr : sub ⊆ r := by
            intro x hx
            apply hrx
            rw [hreq]
            simp only [Finset.mem_union]
            right
            exact hx
          have hnumr : optSet child.num ⊆ r := by
            intro x hx
            apply hrx
            rw [hreq]
            simp only [Finset.mem_union]
            left
            right
            exact hx
          intro x hx
          simp only [Node.findPref, hlu] at hx
          cases srest with
          | nil =>
            have hfrnil : fr = [] := mem_foldings_nil.mp hfr
            subst hfrnil
            rw [findPrefCI_nil] at hfp
            injection hfp with hfp2
            simp only [Node.findPref, collect_numbers_eq, descSet] at hx
            rcases Finset.mem_union.mp hx with hx | hx
            · exact hnumr hx
            · apply hsubr
              rw [← hfp2]
              exact hx
          | cons c2 srest2 =>
            have hlen : (c2 :: srest2).length ≤ L := by
              simp only [List.length_cons] at hs ⊢
              omega
            exact hsubr (ih (c2 :: srest2) hlen (by simp) child sub hfp fr hfr hx)
      rcases hfeq with hfeq | hfeq
      · exact hkey (rustUpper c) ∅ a1 hb1 (ha1a2.trans ha2r) hfeq
      · exact hkey (rustLower c) a1 a2 hb2 ha2r hfeq

/-- C4 amended: whenever the case-insensitive search returns normally on a
nonempty prefix, its result contains the union over all case-foldings of the
prefix of the case-sensitive search; equality fails in general because the
loop also explores later prefix characters from every node already reached. -/
theorem claim_C4 (n : Node) (s : List Char) (r : Finset ℕ) (hne : s ≠ [])
    (h : Node.findPrefCI n s = some r) : foldingsUnion n s ⊆ r := by
  unfold foldingsUnion
  exact foldr_union_subset (foldings s) (ciSuper s.length s le_rfl hne n r h)

/-- C4: the claim equates the case-insensitive prefix search with the union
of the case-sensitive search over all case-foldings of the prefix. On the
trie holding only the word l with id one, the prefix al refutes it: every
folding of al misses the trie, so the union is empty, but the search still
returns the id because its loop also matches the character l of the prefix
at the root. -/
theorem claim_C4_counterexample :
    Node.findPrefCI (Node.push Node.new ['l'] 1) ['a', 'l'] ≠
      some (foldingsUnion (Node.push Node.new ['l'] 1) ['a', 'l']) := by
  intro hcontra
  have e1 : ciBranch (Node.push Node.new ['l'] 1) (rustUpper 'a') ['a', 'l'] 0 ∅ = some ∅ :=
    ciBranch_none_case rfl
  have e2 : ciBranch (Node.push Node.new ['l'] 1) (rustLower 'a') ['a', 'l'] 0 ∅ = some ∅ :=
    ciBranch_none_case rfl
  have e3 : ciBranch (Node.push Node.new ['l'] 1) (rustUpper 'l') ['a', 'l'] (0 + 1) ∅ =
      some ∅ := ciBranch_none_case rfl
  have e4 : ciBranch (Node.push Node.new ['l'] 1) (rustLower 'l') ['a', 'l'] (0 + 1) ∅ =
      some ((∅ ∪ optSet (Node.mk (some 1) []).num) ∪
        Node.append_inner (Node.mk (some 1) [])) :=
    ciBranch_some_case rfl rfl (findPrefCI_nil (Node.mk (some 1) []))
  have hL : Node.findPrefCI (Node.push Node.new ['l'] 1) ['a', 'l'] = some {1} := by
    rw [findPrefCI_eq_ciLoop, ciLoop_cons_eq e1 e2, ciLoop_cons_eq e3 e4, ciLoop_nil]
    have hcond : ¬ (['a', 'l'] : List Char) = [] := by simp
    rw [if_neg hcond]
    have hval : ((∅ ∪ optSet (Node.mk (some 1) []).num) ∪
        Node.append_inner (Node.mk (some 1) [])) = ({1} : Finset ℕ) := by decide
    rw [hval]
  have hR : foldingsUnion (Node.push Node.new ['l'] 1) ['a', 'l'] = (∅ : Finset ℕ) := by
    decide
  rw [hL, hR] at hcontra
  exact absurd (Option.some.inj hcontra) (by decide)

theorem claim_C4_witness : foldingsUnion Node.new ['a'] ⊆ (∅ : Finset ℕ) := by
  have e1 : ciBranch Node.new (rustUpper 'a') ['a'] 0 ∅ = some ∅ := ciBranch_none_case rfl
  have e2 : ciBranch Node.new (rustLower 'a') ['a'] 0 ∅ = some ∅ := ciBranch_none_case rfl
  have hEval : Node.findPrefCI Node.new ['a'] = some ∅ := by
    rw [findPrefCI_eq_ciLoop, ciLoop_cons_eq e1 e2, ciLoop_nil]
    have hcond : ¬ (['a'] : List Char) = [] := by simp
    rw [if_neg hcond]
  exact claim_C4 Node.new ['a'] ∅ (by simp) hEval

theorem utf8Len_ascii {c : Char} (h : c.toNat < 128) : utf8Len c = 1 := by
  unfold utf8Len
  rw [if_pos h]

theorem byteDrop_ascii : ∀ (s : List Char), (∀ c ∈ s, c.toNat < 128) →
    ∀ k, k ≤ s.length → byteDrop s k = some (s.drop k) := by
  intro s
  induction s with
  | nil =>
    intro _ k hk
    have : k = 0 := by simpa using hk
    subst this
    rfl
  | cons c cs ih =>
    intro hascii k hk
    cases k with
    | zero => rfl
    | succ k2 =>
      have h1 : utf8Len c = 1 := utf8Len_ascii (hascii c (by simp))
      simp only [byteDrop, h1]
      rw [if_pos (by omega)]
      have harith : k2 + 1 - 1 = k2 := by omega
      rw [harith]
      have hk2 : k2 ≤ cs.length := by
        simp only [List.length_cons] at hk
        omega
      rw [ih (fun d hd => hascii d (List.mem_cons_of_mem c hd)) k2 hk2]
      simp

theorem ciLoop_ascii : ∀ (L : Nat) (s : List Char), s.length ≤ L →
    (∀ c ∈ s, c.toNat < 128) →
    ∀ (n : Node) (idx : Nat) (rem : List Char) (acc : Finset ℕ), rem = s.drop idx →
    (ciLoop n s idx rem acc).isSome = true := by
  intro L
  induction L with
  | zero =>
    intro s hs _ n idx rem acc hrem
    have hnil : s = [] := by
      cases s with
      | nil => rfl
      | cons a b => simp at hs
    subst hnil
    simp only [List.drop_nil] at hrem
    subst hrem
    simp [ciLoop]
  | succ L ih =>
    intro s hs hascii n idx rem acc hrem
    suffices hsuff : ∀ (rem2 : List Char) (idx2 : Nat) (acc2 : Finset ℕ),
        rem2 = s.drop idx2 → (ciLoop n s idx2 rem2 acc2).isSome = true from
      hsuff rem idx acc hrem
    intro rem2
    induction rem2 with
    | nil => intro idx2 acc2 _; simp [ciLoop]
    | cons c rest ihrem =>
      intro idx2 acc2 hrem2
      have hidx : idx2 < s.length := by
        by_contra hcon
        push_neg at hcon
        rw [List.drop_eq_nil_of_le hcon] at hrem2
        exact List.noConfusion hrem2
      have hbd : byteDrop s (idx2 + 1) = some (s.drop (idx2 + 1)) :=
        byteDrop_ascii s hascii (idx2 + 1) (by omega)
      have hdropsucc : rest = s.drop (idx2 + 1) := by
        have h1 : s.drop (idx2 + 1) = (s.drop idx2).drop 1 := by
          rw [List.drop_drop]
        rw [h1, ← hrem2]
        rfl
      have hsub : ∀ child : Node, (Node.findPrefCI child (s.drop (idx2 + 1))).isSome = true := by
        intro child
        have hlen : (s.drop (idx2 + 1)).length ≤ L := by
          simp only [List.length_drop]
          omega
        have hasc : ∀ d ∈ s.drop (idx2 + 1), d.toNat < 128 := fun d hd =>
          hascii d (List.mem_of_mem_drop hd)
        have := ih (s.drop (idx2 + 1)) hlen hasc child 0 (s.drop (idx2 + 1)) ∅ (by simp)
        simpa [Node.findPrefCI] using this
      have hbranch : ∀ (ch : Char) (acc0 : Finset ℕ),
          (ciBranch n ch s idx2 acc0).isSome = true := by
        intro ch acc0
        cases hlu : lookupChild n.children ch with
        | none => simp [ciBranch, hlu]
        | some child =>
          obtain ⟨sub, hsub2⟩ := Option.isSome_iff_exists.mp (hsub child)
          simp only [ciBranch, hlu]
          split
          · rename_i heq
            rw [hbd] at heq
            exact Option.noConfusion heq
          · rename_i tail heq
            rw [hbd] at heq
            injection heq with heq2
            subst heq2
            rw [hsub2]
            simp
      obtain ⟨a1, ha1⟩ := Option.isSome_iff_exists.mp (hbranch (rustUpper c) acc2)
      obtain ⟨a2, ha2⟩ := Option.isSome_iff_exists.mp (hbranch (rustLower c) a1)
      simp only [ciLoop, ha1, ha2]
      exact ihrem (idx2 + 1) a2 hdropsucc

/-- C10: on a prefix made of single-byte characters, the byte offset taken
from the character index always falls on a character boundary and never
overruns the string, so find_prefix_case_insensitive returns normally on
every trie. -/
theorem claim_C10 (n : Node) (s : List Char) (h : ∀ c ∈ s, c.toNat < 128) :
    (Node.findPrefCI n s).isSome = true := by
  have := ciLoop_ascii s.length s le_rfl h n 0 s ∅ (by simp)
  simpa [Node.findPrefCI] using this

theorem claim_C10_witness :
    (Node.findPrefCI (Node.push Node.new ['a', 'b'] 1) ['a', 'b', 'c']).isSome = true :=
  claim_C10 (Node.push Node.new ['a', 'b'] 1) ['a', 'b', 'c'] (by decide)

theorem terminalsCh_ids_aux : ∀ (k : Nat) (cs : List (Char × Node)), sizeCh cs ≤ k →
    ((terminalsCh cs).map Prod.snd).toFinset = appendInnerCh cs := by
  intro k
  induction k with
  | zero =>
    intro cs h
    cases cs with
    | nil => rfl
    | cons p rest =>
      cases p with
      | mk c m =>
        have := size_pos m
        simp only [sizeCh] at h
        omega
  | succ k ih =>
    intro cs h
    induction cs with
    | nil => rfl
    | cons p rest ihrest =>
      cases p with
      | mk c m =>
        simp only [sizeCh] at h
        have hm1 : 1 ≤ Node.size m := size_pos m
        have hrest : sizeCh rest ≤ k + 1 := by omega
        have hidsm : ((Node.terminals m).map Prod.snd).toFinset =
            optSet m.num ∪ Node.append_inner m := by
          cases m with
          | mk nm2 cs2 =>
            have hcs2 : sizeCh cs2 ≤ k := by
              simp only [Node.size] at h
              omega
            simp only [Node.terminals, Node.append_inner, List.map_append,
              List.toFinset_append, ih cs2 hcs2, Node.num]
            cases nm2 with
            | none => simp [optSet]
            | some kk => simp [optSet]
        simp only [terminalsCh, List.map_append, List.toFinset_append, List.map_map]
        have hcomp : (Prod.snd ∘ fun p : List Char × Nat => (c :: p.1, p.2)) = Prod.snd := by
          funext q
          rfl
        rw [hcomp, hidsm, ihrest hrest]
        rfl

theorem terminals_ids (n : Node) :
    ((Node.terminals n).map Prod.snd).toFinset = descSet n := by
  cases n with
  | mk nm cs =>
    simp only [Node.terminals, descSet, Node.append_inner, List.map_append,
      List.toFinset_append, terminalsCh_ids_aux (sizeCh cs) cs le_rfl, Node.num]
    cases nm with
    | none => simp [optSet]
    | some kk => simp [optSet]

theorem terminalsCh_first_char : ∀ (cs : List (Char × Node)) (q : List Char × Nat),
    q ∈ terminalsCh cs → ∃ d w, q.1 = d :: w ∧ d ∈ cs.map Prod.fst := by
  intro cs
  induction cs with
  | nil => intro q hq; simp [terminalsCh] at hq
  | cons p rest ih =>
    intro q hq
    cases p with
    | mk c m =>
      simp only [terminalsCh, List.mem_append, List.mem_map] at hq
      rcases hq with ⟨e, _, heq⟩ | hq
      · exact ⟨c, e.1, by rw [← heq], by simp⟩
      · obtain ⟨d, w, hdw, hd⟩ := ih q hq
        exact ⟨d, w, hdw, by simp [hd]⟩

theorem isPrefixOf_nil_left (w : List Char) : ([] : List Char).isPrefixOf w = true := by
  cases w with
  | nil => rfl
  | cons a b => rfl

theorem isPrefixOf_cons_nil (c : Char) (rest : List Char) :
    (c :: rest).isPrefixOf ([] : List Char) = false := rfl

theorem isPrefixOf_cons_cons (c d : Char) (rest w : List Char) :
    (c :: rest).isPrefixOf (d :: w) = ((c == d) && rest.isPrefixOf w) := rfl

theorem terminalsCh_filter_no_key (cs : List (Char × Node)) (c : Char) (rest : List Char)
    (h : c ∉ cs.map Prod.fst) :
    (terminalsCh cs).filter (fun q => (c :: rest).isPrefixOf q.1) = [] := by
  rw [List.filter_eq_nil_iff]
  intro q hq
  obtain ⟨d, w, hdw, hd⟩ := terminalsCh_first_char cs q hq
  have hdc : ¬ (c == d) = true := by
    intro hcon
    exact h (beq_iff_eq.mp hcon ▸ hd)
  rw [hdw, isPrefixOf_cons_cons]
  simp only [Bool.and_eq_true, not_and]
  intro hcon
  exact absurd hcon hdc

theorem findPref_chars : ∀ (p : List Char) (n : Node), Node.wf n = true →
    Node.findPref n p =
      (((Node.terminals n).filter (fun q => p.isPrefixOf q.1)).map Prod.snd).toFinset := by
  intro p
  induction p with
  | nil =>
    intro n _
    have hfilter : (Node.terminals n).filter
        (fun q => ([] : List Char).isPrefixOf q.1) = Node.terminals n := by
      rw [List.filter_eq_self]
      intro q _
      rw [isPrefixOf_nil_left]
    simp only [Node.findPref, hfilter, collect_numbers_eq, terminals_ids]
  | cons c rest ih =>
    intro n hwf
    cases n with
    | mk nm cs =>
      simp only [Node.wf, Bool.and_eq_true, decide_eq_true_eq] at hwf
      obtain ⟨hnd, hwfch⟩ := hwf
      have hmain : ∀ cs2 : List (Char × Node), (cs2.map Prod.fst).Nodup → wfCh cs2 = true →
          (match lookupChild cs2 c with
            | none => (∅ : Finset ℕ)
            | some child => Node.findPref child rest) =
          (((terminalsCh cs2).filter (fun q => (c :: rest).isPrefixOf q.1)).map
            Prod.snd).toFinset := by
        intro cs2
        induction cs2 with
        | nil => intro _ _; rfl
        | cons p tl ihtl =>
          intro hnd2 hwf2
          cases p with
          | mk d m =>
            simp only [List.map_cons, List.nodup_cons] at hnd2
            obtain ⟨hdnotin, hndtl⟩ := hnd2
            simp only [wfCh, Bool.and_eq_true] at hwf2
            obtain ⟨hwfm, hwftl⟩ := hwf2
            simp only [terminalsCh, List.filter_append, List.map_append, List.toFinset_append]
            rw [List.filter_map]
            by_cases hdc : c = d
            · subst hdc
              have hlu : lookupChild ((c, m) :: tl) c = some m := by
                simp [lookupChild]
              rw [hlu]
              have htl0 : (terminalsCh tl).filter
                  (fun q => (c :: rest).isPrefixOf q.1) = [] :=
                terminalsCh_filter_no_key tl c rest hdnotin
              rw [htl0]
              have hpred : ((fun q : List Char × Nat => (c :: rest).isPrefixOf q.1) ∘
                  fun p : List Char × Nat => (c :: p.1, p.2)) =
                  (fun q : List Char × Nat => rest.isPrefixOf q.1) := by
                funext q
                simp only [Function.comp_apply, isPrefixOf_cons_cons]
                simp
              rw [hpred]
              simp only [List.map_map]
              have hcomp : (Prod.snd ∘ fun p : List Char × Nat => (c :: p.1, p.2)) =
                  Prod.snd := by
                funext q
                rfl
              rw [hcomp]
              rw [ih m hwfm]
              simp
            · have hlu : lookupChild ((d, m) :: tl) c = lookupChild tl c := by
                simp [lookupChild, hdc]
              rw [hlu]
              have hfirst : (Node.terminals m).filter
                  ((fun q : List Char × Nat => (c :: rest).isPrefixOf q.1) ∘
                    fun p : List Char × Nat => (d :: p.1, p.2)) = [] := by
                rw [List.filter_eq_nil_iff]
                intro q _
                simp only [Function.comp_apply, isPrefixOf_cons_cons]
                simp only [Bool.and_eq_true, not_and]
                intro hcon
                exact absurd (beq_iff_eq.mp hcon) hdc
              rw [hfirst]
              simp only [List.map_nil, List.toFinset_nil, Finset.empty_union]
              exact ihtl hndtl hwftl
      rcases nm with _ | k
      · simp only [Node.findPref, Node.children, Node.terminals, List.nil_append]
        exact hmain cs hnd hwfch
      · simp only [Node.findPref, Node.children, Node.terminals, List.singleton_append]
        have hdrop : ((([], k) :: terminalsCh cs).filter
            (fun q => (c :: rest).isPrefixOf q.1)) =
            (terminalsCh cs).filter (fun q => (c :: rest).isPrefixOf q.1) := by
          rw [List.filter_cons]
          simp [isPrefixOf_cons_nil]
        rw [hdrop]
        exact hmain cs hnd hwfch

/-- C6: for every well-formed trie (pairwise distinct child keys, as every
trie built by push from a fresh root is) and every prefix, find_prefix
returns exactly the ids of the interned words that start with the prefix;
with the empty prefix this is every id in the trie, and when no interned
word extends the prefix the result is empty. -/
theorem claim_C6 (n : Node) (p : List Char) (hwf : Node.wf n = true) :
    Node.findPref n p =
      (((Node.terminals n).filter (fun q => p.isPrefixOf q.1)).map Prod.snd).toFinset ∧
    Node.findPref n [] = ((Node.terminals n).map Prod.snd).toFinset := by
  constructor
  · exact findPref_chars p n hwf
  · rw [findPref_chars [] n hwf]
    have hfilter : (Node.terminals n).filter
        (fun q => ([] : List Char).isPrefixOf q.1) = Node.terminals n := by
      rw [List.filter_eq_self]
      intro q _
      rw [isPrefixOf_nil_left]
    rw [hfilter]

theorem claim_C6_witness :
    Node.findPref (Node.push (Node.push Node.new ['a', 'b'] 1) ['c'] 2) ['a'] =
      (((Node.terminals (Node.push (Node.push Node.new ['a', 'b'] 1) ['c'] 2)).filter
        (fun q => (['a'] : List Char).isPrefixOf q.1)).map Prod.snd).toFinset :=
  (claim_C6 (Node.push (Node.push Node.new ['a', 'b'] 1) ['c'] 2) ['a'] (by decide)).1

theorem foldl_retain {α : Type} (p : α → Bool) :
    ∀ (l acc : List α),
      l.foldl (fun a x => if p x then a ++ [x] else a) acc = acc ++ l.filter p := by
  intro l
  induction l with
  | nil => intro acc; simp
  | cons x rest ih =>
    intro acc
    by_cases h : p x
    · simp only [List.foldl_cons, h, if_true, List.filter_cons, ih, List.append_assoc,
        List.singleton_append]
    · simp only [List.foldl_cons, h, if_false, List.filter_cons, ih, Bool.false_eq_true]

theorem decodeLogBlob_none_iff_aux : ∀ (n : Nat) (blob : List Nat), blob.length ≤ n →
    (decodeLogBlob blob = none ↔ blob.length % 4 ≠ 0) := by
  intro n
  induction n with
  | zero =>
    intro blob h
    match blob with
    | [] => simp [decodeLogBlob]
    | b :: rest => simp at h
  | succ n ih =>
    intro blob h
    match blob with
    | [] => simp [decodeLogBlob]
    | [b0] => simp [decodeLogBlob]
    | [b0, b1] => simp [decodeLogBlob]
    | [b0, b1, b2] => simp [decodeLogBlob]
    | b0 :: b1 :: b2 :: b3 :: rest =>
      have hr : decodeLogBlob rest = none ↔ rest.length % 4 ≠ 0 := by
        apply ih
        simp only [List.length_cons] at h
        omega
      constructor
      · intro h
        simp only [decodeLogBlob] at h
        cases hd : decodeLogBlob rest with
        | none =>
          have := hr.mp hd
          simp only [List.length_cons]
          omega
        | some d => rw [hd] at h; simp at h
      · intro h
        have hy : rest.length % 4 ≠ 0 := by
          simp only [List.length_cons] at h
          omega
        have := hr.mpr hy
        simp only [decodeLogBlob, this]

theorem decodeLogBlob_none_iff (blob : List Nat) :
    decodeLogBlob blob = none ↔ blob.length % 4 ≠ 0 :=
  decodeLogBlob_none_iff_aux blob.length blob le_rfl

theorem findLogsRows_abort : ∀ (rows : List (List Nat)) (blob : List Nat),
    blob ∈ rows → decodeLogBlob blob = none → findLogsRows rows = none := by
  intro rows
  induction rows with
  | nil => intro blob h; simp at h
  | cons b rest ih =>
    intro blob hmem hnone
    rcases List.mem_cons.mp hmem with h | h
    · subst h
      simp only [findLogsRows, hnone]
    · cases hd : decodeLogBlob b with
      | none => simp only [findLogsRows, hd]
      | some d =>
        have := ih blob h hnone
        simp only [findLogsRows, hd, this]

/-- C5: the claim states that a range scan meeting a stored blob whose length
is not a multiple of four fails with a recoverable storage error and does not
panic. In the model a panic is none: for the one-byte blob the scan evaluates
to none, so the loop reads past the end of the blob and panics instead of
returning an error. -/
theorem claim_C5_counterexample :
    ([0] : List Nat).length % 4 ≠ 0 ∧ findLogsRows [[0]] = none := by
  constructor
  · decide
  · rfl

/-- C5 amended: a record blob whose byte length is not a multiple of four
makes the decoding loop of get_logs and find_logs panic with an
index-out-of-bounds (modelled by none); the whole scan aborts with no
partial data, and blobs whose length is a multiple of four decode fully. -/
theorem claim_C5 :
    (∀ blob : List Nat, decodeLogBlob blob = none ↔ blob.length % 4 ≠ 0) ∧
    (∀ (rows : List (List Nat)) (blob : List Nat), blob ∈ rows →
      blob.length % 4 ≠ 0 → findLogsRows rows = none) := by
  constructor
  · exact decodeLogBlob_none_iff
  · intro rows blob hmem hlen
    exact findLogsRows_abort rows blob hmem ((decodeLogBlob_none_iff blob).mpr hlen)

theorem claim_C5_witness : findLogsRows [[1, 0, 0, 0], [7, 7]] = none :=
  claim_C5.2 [[1, 0, 0, 0], [7, 7]] [7, 7] (by decide) (by decide)

/-- C7: filter_prefixed keeps exactly the buffers containing an id of the
trie prefix search, filter_word keeps exactly the buffers containing an id
obtained by exact lookup of one of the words, and both results are sublists
of the input, so relative order is preserved. -/
theorem claim_C7 (m : Module) (word : List Char) (words : List (List Char))
    (buffers : List (List Nat)) :
    Module.filter_prefixed m word buffers =
      buffers.filter (fun buf => buf.any (fun k => decide (k ∈ Node.findPref m.filter word))) ∧
    Module.filter_word m words buffers =
      buffers.filter (fun buf => buf.any (fun k => decide (k ∈ wordNumSet m words))) ∧
    List.Sublist (Module.filter_prefixed m word buffers) buffers ∧
    List.Sublist (Module.filter_word m words buffers) buffers := by
  have h1 : Module.filter_prefixed m word buffers =
      buffers.filter (fun buf => buf.any (fun k => decide (k ∈ Node.findPref m.filter word))) := by
    unfold Module.filter_prefixed
    rw [foldl_retain]
    simp
  have h2 : Module.filter_word m words buffers =
      buffers.filter (fun buf => buf.any (fun k => decide (k ∈ wordNumSet m words))) := by
    unfold Module.filter_word
    rw [foldl_retain]
    simp
  refine ⟨h1, h2, ?_, ?_⟩
  · rw [h1]; exact List.filter_sublist buffers
  · rw [h2]; exact List.filter_sublist buffers

/-- C8: in the save_log handler the dictionary write guard is acquired, the
log is serialized, the repository append is awaited and only then is the
guard released at the end of the handler scope, so the exclusive dictionary
lock is held across the await, contrary to the claim that it is released
before the append. -/
theorem claim_C8 :
    saveLogSteps.indexOf SaveLogStep.awaitInsertLog <
      saveLogSteps.indexOf SaveLogStep.releaseDictWrite ∧
    saveLogSteps.indexOf SaveLogStep.acquireDictWrite <
      saveLogSteps.indexOf SaveLogStep.awaitInsertLog := by
  decide

/-- C9: the claim states that save_schema_to_file rejects a dictionary whose
mapping holds a token with embedded whitespace. On the reachable dictionary
holding the token of characters a, space, b the writer returns ok, writing
the unparsable line, so the claim fails. -/
theorem claim_C9_counterexample :
    (∃ p ∈ (Module.set_map_from Module.new [((['a', ' ', 'b'] : List Char), 1)]).words_to_numbers,
      ∃ c ∈ p.1, rustIsWhitespace c = true) ∧
    (Module.save_schema_to_file
      (Module.set_map_from Module.new [((['a', ' ', 'b'] : List Char), 1)])).isOk = true := by
  constructor
  · exact ⟨(['a', ' ', 'b'], 1), by decide, ' ', by decide, by decide⟩
  · rfl

/-- C9 amended: the snapshot writer never rejects a dictionary; for every
dictionary it returns ok with one formatted line per mapping entry, also for
tokens with embedded whitespace or an embedded separator, which are written
as they are. -/
theorem claim_C9 (m : Module) :
    ∃ lines, Module.save_schema_to_file m = Except.ok lines ∧
      ∀ w n, (w, n) ∈ m.words_to_numbers → schemaLine w n ∈ lines := by
  refine ⟨m.words_to_numbers.map (fun p => schemaLine p.1 p.2), ?_, ?_⟩
  · rfl
  · intro w n hmem
    exact List.mem_map.mpr ⟨(w, n), hmem, rfl⟩

theorem splitWSAux_tokens : ∀ (l cur : List Char),
    (∀ c ∈ cur, rustIsWhitespace c = false) →
    ∀ t ∈ splitWSAux l cur, t ≠ [] ∧ ∀ c ∈ t, rustIsWhitespace c = false := by
  intro l
  induction l with
  | nil =>
    intro cur hcur t ht
    by_cases hc : cur = []
    · simp [splitWSAux, hc] at ht
    · simp only [splitWSAux, hc, if_false, List.mem_singleton] at ht
      subst ht
      refine ⟨by simpa using hc, ?_⟩
      intro c hc2
      exact hcur c (List.mem_reverse.mp hc2)
  | cons c rest ih =>
    intro cur hcur t ht
    by_cases hws : rustIsWhitespace c = true
    · by_cases hc : cur = []
      · simp only [splitWSAux, hws, if_true, hc] at ht
        exact ih [] (by simp) t ht
      · simp only [splitWSAux, hws, if_true, hc, if_false] at ht
        rcases List.mem_cons.mp ht with h | h
        · subst h
          refine ⟨by simpa using hc, ?_⟩
          intro d hd
          exact hcur d (List.mem_reverse.mp hd)
        · exact ih [] (by simp) t h
    · simp only [splitWSAux, hws, Bool.false_eq_true, if_false] at ht
      refine ih (c :: cur) ?_ t ht
      intro d hd
      rcases List.mem_cons.mp hd with h | h
      · subst h
        exact Bool.eq_false_iff.mpr hws
      · exact hcur d h

theorem splitWS_tokens (l : List Char) :
    ∀ t ∈ splitWS l, t ≠ [] ∧ ∀ c ∈ t, rustIsWhitespace c = false :=
  splitWSAux_tokens l [] (by simp)

theorem lookupW_append : ∀ (a b : List (List Char × Nat)) (t : List Char),
    lookupW (a ++ b) t =
      match lookupW a t with
      | some y => some y
      | none => lookupW b t := by
  intro a
  induction a with
  | nil => intro b t; simp [lookupW]
  | cons p rest ih =>
    intro b t
    cases p with
    | mk w v =>
      by_cases htw : t = w
      · simp [lookupW, htw]
      · simp only [List.cons_append, lookupW, htw, if_false]
        exact ih b t

theorem lookupN_append : ∀ (a b : List (Nat × List Char)) (k : Nat),
    lookupN (a ++ b) k =
      match lookupN a k with
      | some y => some y
      | none => lookupN b k := by
  intro a
  induction a with
  | nil => intro b k; simp [lookupN]
  | cons p rest ih =>
    intro b k
    cases p with
    | mk n w =>
      by_cases hk : k = n
      · simp [lookupN, hk]
      · simp only [List.cons_append, lookupN, hk, if_false]
        exact ih b k

theorem dictInv_new : DictInv Module.new := by
  constructor
  · intro tok n h
    simp [Module.new, lookupW] at h
  · intro n w h
    simp [Module.new, lookupN] at h

theorem serializeToken_miss {m : Module} {t : List Char}
    (hlk : lookupW m.words_to_numbers t = none)
    (hw : m.last_available_number + 1 < 2 ^ 32) :
    serializeToken m t =
      (⟨insertW m.words_to_numbers t (m.last_available_number + 1),
        insertN m.nums_to_words (m.last_available_number + 1) t,
        m.last_available_number + 1,
        Node.push m.filter t (m.last_available_number + 1)⟩,
       m.last_available_number + 1) := by
  simp only [serializeToken, hlk, Nat.mod_eq_of_lt hw]

theorem serializeToken_last (m : Module) (t : List Char) :
    (serializeToken m t).1.last_available_number ≤ m.last_available_number + 1 := by
  cases hlk : lookupW m.words_to_numbers t with
  | some v =>
    simp only [serializeToken, hlk]
    omega
  | none =>
    simp only [serializeToken, hlk]
    exact Nat.mod_le (m.last_available_number + 1) (2 ^ 32)

theorem serializeToken_dictInv {m : Module} (t : List Char) (h : DictInv m)
    (hw : m.last_available_number + 1 < 2 ^ 32) :
    DictInv (serializeToken m t).1 := by
  obtain ⟨h1, h2⟩ := h
  cases hlk : lookupW m.words_to_numbers t with
  | some v =>
    simp only [serializeToken, hlk]
    exact ⟨h1, h2⟩
  | none =>
    have hfree : lookupN m.nums_to_words (m.last_available_number + 1) = none := by
      cases hx : lookupN m.nums_to_words (m.last_available_number + 1) with
      | none => rfl
      | some w =>
        have := h2 _ _ hx
        omega
    rw [serializeToken_miss hlk hw]
    constructor
    · intro tok n hn
      dsimp only at hn ⊢
      simp only [insertW, hlk, Option.isSome_none, Bool.false_eq_true, if_false] at hn
      rw [lookupW_append] at hn
      simp only [insertN, hfree, Option.isSome_none, Bool.false_eq_true, if_false]
      rw [lookupN_append]
      cases hold : lookupW m.words_to_numbers tok with
      | some v =>
        rw [hold] at hn
        simp only [Option.some.injEq] at hn
        subst hn
        rw [h1 tok v hold]
      | none =>
        rw [hold] at hn
        dsimp only at hn
        by_cases htok : tok = t
        · subst htok
          simp [lookupW] at hn
          subst hn
          rw [hfree]
          simp [lookupN]
        · simp only [lookupW, htok, if_false] at hn
          exact Option.noConfusion hn
    · intro n w hn
      dsimp only at hn ⊢
      simp only [insertN, hfree, Option.isSome_none, Bool.false_eq_true, if_false] at hn
      rw [lookupN_append] at hn
      cases hold : lookupN m.nums_to_words n with
      | some y =>
        rw [hold] at hn
        have := h2 n y hold
        omega
      | none =>
        rw [hold] at hn
        simp only [lookupN] at hn
        by_cases hk : n = m.last_available_number + 1
        · omega
        · rw [if_neg hk] at hn
          exact Option.noConfusion hn

theorem serializeToken_lookupN_mono {m : Module} (t : List Char) (h : DictInv m)
    (hw : m.last_available_number + 1 < 2 ^ 32)
    {k : Nat} {w : List Char} (hk : lookupN m.nums_to_words k = some w) :
    lookupN (serializeToken m t).1.nums_to_words k = some w := by
  cases hlk : lookupW m.words_to_numbers t with
  | some v => simp only [serializeToken, hlk]; exact hk
  | none =>
    have hfree : lookupN m.nums_to_words (m.last_available_number + 1) = none := by
      cases hx : lookupN m.nums_to_words (m.last_available_number + 1) with
      | none => rfl
      | some y =>
        have := h.2 _ _ hx
        omega
    rw [serializeToken_miss hlk hw]
    simp only [insertN, hfree, Option.isSome_none, Bool.false_eq_true, if_false]
    rw [lookupN_append, hk]

theorem serializeToken_ret {m : Module} (t : List Char) (h : DictInv m)
    (hw : m.last_available_number + 1 < 2 ^ 32) :
    lookupN (serializeToken m t).1.nums_to_words (serializeToken m t).2 = some t := by
  cases hlk : lookupW m.words_to_numbers t with
  | some v =>
    simp only [serializeToken, hlk]
    exact h.1 t v hlk
  | none =>
    have hfree : lookupN m.nums_to_words (m.last_available_number + 1) = none := by
      cases hx : lookupN m.nums_to_words (m.last_available_number + 1) with
      | none => rfl
      | some y =>
        have := h.2 _ _ hx
        omega
    rw [serializeToken_miss hlk hw]
    simp only [insertN, hfree, Option.isSome_none, Bool.false_eq_true, if_false]
    rw [lookupN_append, hfree]
    simp [lookupN]

theorem serializeTokens_dictInv : ∀ (ts : List (List Char)) (m : Module),
    DictInv m → m.last_available_number + ts.length < 2 ^ 32 →
    DictInv (serializeTokens m ts).1 := by
  intro ts
  induction ts with
  | nil => intro m h _; simpa [serializeTokens] using h
  | cons t rest ih =>
    intro m h hb
    simp only [List.length_cons] at hb
    have hw1 : m.last_available_number + 1 < 2 ^ 32 := by omega
    have hlast := serializeToken_last m t
    simp only [serializeTokens]
    refine ih (serializeToken m t).1 (serializeToken_dictInv t h hw1) ?_
    omega

theorem serializeTokens_lookupN_mono : ∀ (ts : List (List Char)) (m : Module),
    DictInv m → m.last_available_number + ts.length < 2 ^ 32 →
    ∀ (k : Nat) (w : List Char), lookupN m.nums_to_words k = some w →
    lookupN (serializeTokens m ts).1.nums_to_words k = some w := by
  intro ts
  induction ts with
  | nil => intro m _ _ k w hk; simpa [serializeTokens] using hk
  | cons t rest ih =>
    intro m h hb k w hk
    simp only [List.length_cons] at hb
    have hw1 : m.last_available_number + 1 < 2 ^ 32 := by omega
    have hlast := serializeToken_last m t
    simp only [serializeTokens]
    exact ih (serializeToken m t).1 (serializeToken_dictInv t h hw1) (by omega) k w
      (serializeToken_lookupN_mono t h hw1 hk)

theorem serializeTokens_forall2 : ∀ (ts : List (List Char)) (m : Module), DictInv m →
    m.last_available_number + ts.length < 2 ^ 32 →
    List.Forall₂ (fun t n => lookupN (serializeTokens m ts).1.nums_to_words n = some t)
      ts (serializeTokens m ts).2 := by
  intro ts
  induction ts with
  | nil => intro m _ _; simp [serializeTokens]
  | cons t rest ih =>
    intro m h hb
    simp only [List.length_cons] at hb
    have hw1 : m.last_available_number + 1 < 2 ^ 32 := by omega
    have hlast := serializeToken_last m t
    simp only [serializeTokens]
    constructor
    · exact serializeTokens_lookupN_mono rest (serializeToken m t).1
        (serializeToken_dictInv t h hw1) (by omega) _ _ (serializeToken_ret t h hw1)
    · exact ih (serializeToken m t).1 (serializeToken_dictInv t h hw1) (by omega)

theorem flatten_words_of_forall2 {m : Module} : ∀ {ts : List (List Char)} {ns : List Nat},
    List.Forall₂ (fun t n => lookupN m.nums_to_words n = some t) ts ns →
    (ns.map (fun k => wordOf m k ++ [' '])).flatten =
      (ts.map (fun t => t ++ [' '])).flatten := by
  intro ts ns h
  induction h with
  | nil => rfl
  | cons htn _ ih =>
    simp only [List.map_cons, List.flatten_cons, ih]
    simp [wordOf, htn]

theorem flatten_tokens : ∀ ts : List (List Char), ts ≠ [] →
    (ts.map (fun t => t ++ [' '])).flatten = joinTok ts ++ [' '] := by
  intro ts
  induction ts with
  | nil => intro h; exact absurd rfl h
  | cons t rest ih =>
    intro _
    cases rest with
    | nil => simp [joinTok]
    | cons t2 rest2 =>
      have hr := ih (by simp)
      simp only [List.map_cons, List.flatten_cons] at hr ⊢
      rw [hr]
      simp [joinTok]

theorem joinTok_cons_exists : ∀ (t0 : List Char) (ts2 : List (List Char)),
    ∃ rest, joinTok (t0 :: ts2) = t0 ++ rest := by
  intro t0 ts2
  cases ts2 with
  | nil => exact ⟨[], by simp [joinTok]⟩
  | cons a b => exact ⟨' ' :: joinTok (a :: b), rfl⟩

theorem joinTok_last : ∀ ts : List (List Char), ts ≠ [] →
    (∀ t ∈ ts, t ≠ [] ∧ ∀ c ∈ t, rustIsWhitespace c = false) →
    ∃ l b, joinTok ts = l ++ [b] ∧ rustIsWhitespace b = false := by
  intro ts
  induction ts with
  | nil => intro h; exact absurd rfl h
  | cons t rest ih =>
    intro _ hts
    cases rest with
    | nil =>
      obtain ⟨hne, hchars⟩ := hts t (by simp)
      rcases List.eq_nil_or_concat t with hcase | ⟨l, b, hcase⟩
      · exact absurd hcase hne
      · refine ⟨l, b, by simp [joinTok, hcase], ?_⟩
        exact hchars b (by simp [hcase])
    | cons t2 rest2 =>
      obtain ⟨l, b, hl, hb⟩ := ih (by simp) (fun u hu => hts u (List.mem_cons_of_mem t hu))
      refine ⟨t ++ ' ' :: l, b, ?_, hb⟩
      show t ++ ' ' :: joinTok (t2 :: rest2) = t ++ ' ' :: l ++ [b]
      rw [hl]
      simp

theorem trim_join : ∀ ts : List (List Char),
    (∀ t ∈ ts, t ≠ [] ∧ ∀ c ∈ t, rustIsWhitespace c = false) →
    trimWS ((ts.map (fun t => t ++ [' '])).flatten) = joinTok ts := by
  intro ts hts
  cases ts with
  | nil => rfl
  | cons t0 rest =>
    rw [flatten_tokens (t0 :: rest) (by simp)]
    obtain ⟨h0ne, h0chars⟩ := hts t0 (by simp)
    obtain ⟨r0, hr0⟩ := joinTok_cons_exists t0 rest
    obtain ⟨a, t0tail, ha⟩ : ∃ a t0tail, t0 = a :: t0tail := by
      cases t0 with
      | nil => exact absurd rfl h0ne
      | cons a tl => exact ⟨a, tl, rfl⟩
    have hhead : rustIsWhitespace a = false := h0chars a (by simp [ha])
    obtain ⟨l, b, hl, hb⟩ := joinTok_last (t0 :: rest) (by simp) hts
    set J := joinTok (t0 :: rest) with hJ
    have hJcons : J = a :: (t0tail ++ r0) := by
      rw [hr0, ha]
      simp
    unfold trimWS
    have step1 : (J ++ [' ']).dropWhile rustIsWhitespace = J ++ [' '] := by
      rw [hJcons]
      simp only [List.cons_append, List.dropWhile_cons, hhead]
      simp
    rw [step1]
    have step2 : (J ++ [' ']).reverse = ' ' :: J.reverse := by simp
    rw [step2]
    have hsp : rustIsWhitespace ' ' = true := by decide
    have step3 : (' ' :: J.reverse).dropWhile rustIsWhitespace =
        J.reverse.dropWhile rustIsWhitespace := by
      simp only [List.dropWhile_cons, hsp, if_true]
    rw [step3]
    have step4 : J.reverse.dropWhile rustIsWhitespace = J.reverse := by
      rw [hl]
      simp only [List.reverse_append, List.reverse_cons, List.reverse_nil, List.nil_append,
        List.singleton_append, List.dropWhile_cons, hb]
      simp
    rw [step4]
    simp

/-- Refutation of C1 as stated: the round trip is claimed for every text on
the same dictionary, but the u32 counter wraps. A restored map holding ids 1
and 2 to the 32 minus 1 (a stored num of -1 reaches set_map_from as u32::MAX
through the as-u32 cast) sets the counter to u32::MAX; encoding the text
x y v then mints id 0 for x, and id 1 for y, overwriting the inverse entry
of v, so the text decodes to x y y. -/
theorem claim_C1_counterexample :
    Module.deserialize
        (Module.serialize
          (Module.set_map_from Module.new
            [((['v'] : List Char), 1), ((['w'] : List Char), 2 ^ 32 - 1)])
          ['x', ' ', 'y', ' ', 'v']).1
        (Module.serialize
          (Module.set_map_from Module.new
            [((['v'] : List Char), 1), ((['w'] : List Char), 2 ^ 32 - 1)])
          ['x', ' ', 'y', ' ', 'v']).2 ≠
      normalizeWS ['x', ' ', 'y', ' ', 'v'] := by
  decide

/-- C1 amended: on every internally coherent dictionary, and provided the
u32 counter cannot wrap during the call (counter plus token count of the
text stays below 2 to the 32), decoding the ids produced by encoding a text
yields the text with whitespace runs collapsed to single spaces and ends
stripped. -/
theorem claim_C1 (m : Module) (log : List Char) (h : DictInv m)
    (hb : m.last_available_number + (splitWS log).length < 2 ^ 32) :
    Module.deserialize (Module.serialize m log).1 (Module.serialize m log).2 =
      normalizeWS log := by
  unfold Module.serialize Module.deserialize normalizeWS
  have hforall := serializeTokens_forall2 (splitWS log) m h hb
  rw [flatten_words_of_forall2 hforall]
  exact trim_join (splitWS log) (splitWS_tokens log)

theorem claim_C1_witness :
    Module.deserialize
        (Module.serialize Module.new [' ', 'h', 'i', ' ', ' ', 'y', 'o', 'u', ' ']).1
        (Module.serialize Module.new [' ', 'h', 'i', ' ', ' ', 'y', 'o', 'u', ' ']).2 =
      normalizeWS [' ', 'h', 'i', ' ', ' ', 'y', 'o', 'u', ' '] :=
  claim_C1 Module.new [' ', 'h', 'i', ' ', ' ', 'y', 'o', 'u', ' '] dictInv_new (by decide)

theorem lookupW_enum1_none : ∀ (seen : List (List Char)) (k : Nat) (t : List Char),
    lookupW (enum1 seen k) t = none ↔ t ∉ seen := by
  intro seen
  induction seen with
  | nil => intro k t; simp [enum1, lookupW]
  | cons w ws ih =>
    intro k t
    by_cases h : t = w
    · subst h
      simp [enum1, lookupW]
    · simp only [enum1, lookupW, h, if_false, List.mem_cons]
      rw [ih]
      simp [h]

theorem lookupW_enum1_ge : ∀ (seen : List (List Char)) (k : Nat) (t : List Char) (n : Nat),
    lookupW (enum1 seen k) t = some n → k ≤ n := by
  intro seen
  induction seen with
  | nil => intro k t n h; simp [enum1, lookupW] at h
  | cons w ws ih =>
    intro k t n h
    by_cases hw : t = w
    · subst hw
      simp [enum1, lookupW] at h
      omega
    · simp only [enum1, lookupW, hw, if_false] at h
      have := ih (k + 1) t n h
      omega

theorem enum1_append : ∀ (xs ys : List (List Char)) (k : Nat),
    enum1 (xs ++ ys) k = enum1 xs k ++ enum1 ys (k + xs.length) := by
  intro xs
  induction xs with
  | nil => intro ys k; simp [enum1]
  | cons w ws ih =>
    intro ys k
    have harith : k + 1 + ws.length = k + (ws.length + 1) := by omega
    calc enum1 ((w :: ws) ++ ys) k
        = (w, k) :: enum1 (ws ++ ys) (k + 1) := rfl
      _ = (w, k) :: (enum1 ws (k + 1) ++ enum1 ys (k + 1 + ws.length)) := by rw [ih]
      _ = ((w, k) :: enum1 ws (k + 1)) ++ enum1 ys (k + (ws.length + 1)) := by
          rw [harith]; rfl

theorem lookupW_append_left : ∀ (a b : List (List Char × Nat)) (t : List Char) (n : Nat),
    lookupW a t = some n → lookupW (a ++ b) t = some n := by
  intro a
  induction a with
  | nil => intro b t n h; simp [lookupW] at h
  | cons p rest ih =>
    intro b t n h
    cases p with
    | mk w v =>
      by_cases hw : t = w
      · subst hw
        simp_all [lookupW]
      · simp only [lookupW, hw, if_false] at h
        simp only [List.cons_append, lookupW, hw, if_false]
        exact ih b t n h

theorem firstSeenAux_append : ∀ (xs ys : List (List Char)) (acc : List (List Char)),
    firstSeenAux acc (xs ++ ys) = firstSeenAux (firstSeenAux acc xs) ys := by
  intro xs
  induction xs with
  | nil => intro ys acc; simp [firstSeenAux]
  | cons t ts ih =>
    intro ys acc
    by_cases h : t ∈ acc
    · simp only [List.cons_append, firstSeenAux, h, if_true]
      exact ih ys acc
    · simp only [List.cons_append, firstSeenAux, h, if_false]
      exact ih ys (acc ++ [t])

theorem firstSeenAux_extends : ∀ (ts acc : List (List Char)),
    ∃ extra, firstSeenAux acc ts = acc ++ extra := by
  intro ts
  induction ts with
  | nil => intro acc; exact ⟨[], by simp [firstSeenAux]⟩
  | cons t rest ih =>
    intro acc
    by_cases h : t ∈ acc
    · obtain ⟨extra, he⟩ := ih acc
      exact ⟨extra, by simp only [firstSeenAux, h, if_true, he]⟩
    · obtain ⟨extra, he⟩ := ih (acc ++ [t])
      refine ⟨[t] ++ extra, ?_⟩
      simp only [firstSeenAux, h, if_false, he, List.append_assoc]

theorem serializeToken_trace {m : Module} {seen : List (List Char)} (t : List Char)
    (h : TraceInv m seen) (hbound : t ∉ seen → seen.length + 1 < 2 ^ 32) :
    TraceInv (serializeToken m t).1 (if t ∈ seen then seen else seen ++ [t]) := by
  obtain ⟨hmap, hlen⟩ := h
  by_cases hmem : t ∈ seen
  · have hnone : ¬ lookupW (enum1 seen 1) t = none := by
      rw [lookupW_enum1_none]
      simp [hmem]
    cases hlk : lookupW m.words_to_numbers t with
    | none => rw [hmap] at hlk; exact absurd hlk hnone
    | some v =>
      simp only [serializeToken, hlk, hmem, if_true]
      exact ⟨hmap, hlen⟩
  · have hnone : lookupW m.words_to_numbers t = none := by
      rw [hmap, lookupW_enum1_none]
      exact hmem
    have hb : m.last_available_number + 1 < 2 ^ 32 := by
      rw [hlen]
      exact hbound hmem
    rw [serializeToken_miss hnone hb]
    simp only [hmem, if_false]
    constructor
    · simp only [insertW, hnone, Option.isSome_none, Bool.false_eq_true, if_false]
      rw [hmap, hlen, enum1_append]
      simp [enum1]
      omega
    · simp only [hlen, List.length_append, List.length_cons, List.length_nil]

theorem serializeTokens_trace : ∀ (ts : List (List Char)) (m : Module) (seen : List (List Char)),
    TraceInv m seen → (firstSeenAux seen ts).length < 2 ^ 32 →
    TraceInv (serializeTokens m ts).1 (firstSeenAux seen ts) := by
  intro ts
  induction ts with
  | nil => intro m seen h _; simpa [serializeTokens, firstSeenAux] using h
  | cons t rest ih =>
    intro m seen h hb
    by_cases hmem : t ∈ seen
    · have hb2 : (firstSeenAux seen rest).length < 2 ^ 32 := by
        simpa [firstSeenAux, hmem] using hb
      have h1 := serializeToken_trace t h (fun hnot => absurd hmem hnot)
      rw [if_pos hmem] at h1
      have h2 := ih (serializeToken m t).1 seen h1 hb2
      simpa [serializeTokens, firstSeenAux, hmem] using h2
    · have hfseq : firstSeenAux seen (t :: rest) = firstSeenAux (seen ++ [t]) rest := by
        simp [firstSeenAux, hmem]
      have hb2 : (firstSeenAux (seen ++ [t]) rest).length < 2 ^ 32 := by
        rw [← hfseq]
        exact hb
      have hlen1 : seen.length + 1 < 2 ^ 32 := by
        obtain ⟨extra, hex⟩ := firstSeenAux_extends rest (seen ++ [t])
        have hle : (seen ++ [t]).length ≤ (firstSeenAux (seen ++ [t]) rest).length := by
          rw [hex]
          simp
        simp only [List.length_append, List.length_cons, List.length_nil] at hle
        omega
      have h1 := serializeToken_trace t h (fun _ => hlen1)
      rw [if_neg hmem] at h1
      have h2 := ih (serializeToken m t).1 (seen ++ [t]) h1 hb2
      simpa [serializeTokens, hfseq] using h2

theorem runTrace_inv_aux : ∀ (texts : List (List Char)) (m : Module) (seen : List (List Char)),
    TraceInv m seen →
    (firstSeenAux seen (texts.map splitWS).flatten).length < 2 ^ 32 →
    TraceInv (texts.foldl (fun m log => (Module.serialize m log).1) m)
      (firstSeenAux seen (texts.map splitWS).flatten) := by
  intro texts
  induction texts with
  | nil => intro m seen h _; simpa using h
  | cons text rest ih =>
    intro m seen h hb
    have hkey : firstSeenAux seen ((text :: rest).map splitWS).flatten =
        firstSeenAux (firstSeenAux seen (splitWS text)) (rest.map splitWS).flatten := by
      simp [firstSeenAux_append]
    rw [hkey] at hb
    have hb1 : (firstSeenAux seen (splitWS text)).length < 2 ^ 32 := by
      obtain ⟨extra, hex⟩ := firstSeenAux_extends (rest.map splitWS).flatten
        (firstSeenAux seen (splitWS text))
      have hle : (firstSeenAux seen (splitWS text)).length ≤
          (firstSeenAux (firstSeenAux seen (splitWS text)) (rest.map splitWS).flatten).length := by
        rw [hex]
        simp
      omega
    have h1 : TraceInv (Module.serialize m text).1 (firstSeenAux seen (splitWS text)) :=
      serializeTokens_trace (splitWS text) m seen h hb1
    have h2 := ih (Module.serialize m text).1 (firstSeenAux seen (splitWS text)) h1 hb
    simpa [firstSeenAux_append] using h2

theorem runTrace_inv (texts : List (List Char))
    (hb : (firstSeenAux [] (tokensOfTrace texts)).length < 2 ^ 32) :
    TraceInv (runTrace texts) (firstSeenAux [] (tokensOfTrace texts)) := by
  have h0 : TraceInv Module.new [] := ⟨rfl, rfl⟩
  exact runTrace_inv_aux texts Module.new [] h0 hb

/-- The word map built by encoding, one per text, the words a, aa, aaa, ...
of lengths 1 up to N: the id minted for the i-th word is i mod 2 to the 32. -/
def wrapEnum (N : Nat) : List (List Char × Nat) :=
  (List.range N).map (fun i => (List.replicate (i + 1) 'a', (i + 1) % 2 ^ 32))

theorem splitWSAux_nonws : ∀ (l cur : List Char),
    (∀ c ∈ l, rustIsWhitespace c = false) → (cur ≠ [] ∨ l ≠ []) →
    splitWSAux l cur = [cur.reverse ++ l] := by
  intro l
  induction l with
  | nil =>
    intro cur _ hne
    rcases hne with hc | hl
    · simp [splitWSAux, hc]
    · exact absurd rfl hl
  | cons c rest ih =>
    intro cur hnws _
    have hc : rustIsWhitespace c = false := hnws c (by simp)
    simp only [splitWSAux, hc, Bool.false_eq_true, if_false]
    rw [ih (c :: cur) (fun d hd => hnws d (List.mem_cons_of_mem c hd)) (Or.inl (by simp))]
    simp

theorem splitWS_single {l : List Char} (hne : l ≠ [])
    (hnws : ∀ c ∈ l, rustIsWhitespace c = false) : splitWS l = [l] := by
  unfold splitWS
  rw [splitWSAux_nonws l [] hnws (Or.inr hne)]
  simp

theorem lookupW_none_of_keys : ∀ (l : List (List Char × Nat)) (t : List Char),
    (∀ p ∈ l, p.1 ≠ t) → lookupW l t = none := by
  intro l
  induction l with
  | nil => intro t _; rfl
  | cons p rest ih =>
    intro t h
    cases p with
    | mk w v =>
      have hw : w ≠ t := h (w, v) (by simp)
      have htw : ¬ t = w := fun hc => hw hc.symm
      simp only [lookupW, htw, if_false]
      exact ih t (fun q hq => h q (List.mem_cons_of_mem _ hq))

theorem lookupW_wrapEnum_fresh {N j : Nat} (hj : N < j) :
    lookupW (wrapEnum N) (List.replicate j 'a') = none := by
  refine lookupW_none_of_keys (wrapEnum N) _ ?_
  intro p hp
  simp only [wrapEnum, List.mem_map, List.mem_range] at hp
  obtain ⟨i, hi, hpe⟩ := hp
  rw [← hpe]
  intro hc
  have hlen := congrArg List.length hc
  simp only [List.length_replicate] at hlen
  omega

theorem wrapEnum_succ (N : Nat) :
    wrapEnum (N + 1) = wrapEnum N ++ [(List.replicate (N + 1) 'a', (N + 1) % 2 ^ 32)] := by
  simp [wrapEnum, List.range_succ]

theorem mod_succ_u32 (N : Nat) : (N % 2 ^ 32 + 1) % 2 ^ 32 = (N + 1) % 2 ^ 32 := by
  conv_rhs => rw [Nat.add_mod]
  have h1 : 1 % 2 ^ 32 = 1 := by decide
  rw [h1]

theorem serialize_single_fresh {m : Module} {t : List Char}
    (hsp : splitWS t = [t]) (hlk : lookupW m.words_to_numbers t = none) :
    (Module.serialize m t).1.words_to_numbers =
      m.words_to_numbers ++ [(t, (m.last_available_number + 1) % 2 ^ 32)] ∧
    (Module.serialize m t).1.last_available_number =
      (m.last_available_number + 1) % 2 ^ 32 := by
  unfold Module.serialize
  rw [hsp]
  simp only [serializeTokens, serializeToken, hlk]
  constructor
  · dsimp only
    simp only [insertW, hlk, Option.isSome_none, Bool.false_eq_true, if_false]
  · dsimp only

theorem bigTrace_inv : ∀ N : Nat,
    (runTrace ((List.range N).map (fun i => List.replicate (i + 1) 'a'))).words_to_numbers =
      wrapEnum N ∧
    (runTrace ((List.range N).map
        (fun i => List.replicate (i + 1) 'a'))).last_available_number = N % 2 ^ 32 := by
  intro N
  induction N with
  | zero => exact ⟨rfl, by decide⟩
  | succ N ih =>
    obtain ⟨ihw, ihl⟩ := ih
    have hmap : (List.range (N + 1)).map (fun i => List.replicate (i + 1) 'a') =
        (List.range N).map (fun i => List.replicate (i + 1) 'a') ++
          [List.replicate (N + 1) 'a'] := by
      rw [List.range_succ]
      simp
    unfold runTrace at ihw ihl ⊢
    rw [hmap, List.foldl_append, List.foldl_cons, List.foldl_nil]
    have hsplit : splitWS (List.replicate (N + 1) 'a') = [List.replicate (N + 1) 'a'] :=
      splitWS_single (by simp) (fun c hc => by
        rw [List.eq_of_mem_replicate hc]
        decide)
    have hlk : lookupW (((List.range N).map (fun i => List.replicate (i + 1) 'a')).foldl
        (fun m log => (Module.serialize m log).1) Module.new).words_to_numbers
        (List.replicate (N + 1) 'a') = none := by
      rw [ihw]
      exact lookupW_wrapEnum_fresh (Nat.lt_succ_self N)
    obtain ⟨hstepw, hstepl⟩ := serialize_single_fresh hsplit hlk
    refine ⟨?_, ?_⟩
    · rw [hstepw, ihw, ihl, wrapEnum_succ, mod_succ_u32]
    · rw [hstepl, ihl, mod_succ_u32]

/-- Refutation of C2 as stated: the claim says an id below one is never
handed out, but the u32 counter wraps. After encoding 2 to the 32 distinct
words the next fresh word is assigned id 0: the word map of that trace
answers the lookup of the last word with id 0. -/
theorem lookupW_singleton_self (w : List Char) (n : Nat) : lookupW [(w, n)] w = some n := by
  simp [lookupW]

theorem claim_C2_counterexample :
    lookupW (runTrace ((List.range (2 ^ 32)).map
        (fun i => List.replicate (i + 1) 'a'))).words_to_numbers
      (List.replicate (2 ^ 32) 'a') = some 0 := by
  obtain ⟨hw, _⟩ := bigTrace_inv (2 ^ 32)
  rw [hw]
  have hM : (2 : Nat) ^ 32 = (2 ^ 32 - 1) + 1 := by decide
  rw [hM, wrapEnum_succ]
  have hfresh : lookupW (wrapEnum (2 ^ 32 - 1)) (List.replicate ((2 ^ 32 - 1) + 1) 'a') =
      none := lookupW_wrapEnum_fresh (Nat.lt_succ_self (2 ^ 32 - 1))
  rw [lookupW_append, hfresh]
  have hzero : ((2 ^ 32 - 1) + 1) % 2 ^ 32 = 0 := by decide
  rw [lookupW_singleton_self, hzero]

/-- C2 amended: provided the number of distinct tokens of the history stays
below 2 to the 32 (so the u32 counter cannot wrap), the word map of any
dictionary obtained by a sequence of encodes on a fresh Module is exactly
the enumeration, with ids from one in first-seen order, of the distinct
tokens of the history; the counter equals their count; no id below one is
ever returned; and an id once assigned is returned unchanged by every later
encode. -/
theorem claim_C2 (texts : List (List Char))
    (hbound : (firstSeenAux [] (tokensOfTrace texts)).length < 2 ^ 32) :
    (runTrace texts).words_to_numbers = enum1 (firstSeenAux [] (tokensOfTrace texts)) 1 ∧
    (runTrace texts).last_available_number =
      (firstSeenAux [] (tokensOfTrace texts)).length ∧
    (∀ tok n, lookupW (runTrace texts).words_to_numbers tok = some n → 1 ≤ n) ∧
    (∀ pre rest tok n, texts = pre ++ rest →
      lookupW (runTrace pre).words_to_numbers tok = some n →
      lookupW (runTrace texts).words_to_numbers tok = some n) := by
  obtain ⟨hw, hl⟩ := runTrace_inv texts hbound
  refine ⟨hw, hl, ?_, ?_⟩
  · intro tok n h
    rw [hw] at h
    exact lookupW_enum1_ge _ 1 tok n h
  · intro pre rest tok n hsplit h
    have htok : tokensOfTrace texts = tokensOfTrace pre ++ tokensOfTrace rest := by
      simp [tokensOfTrace, hsplit]
    have hseen : firstSeenAux [] (tokensOfTrace texts) =
        firstSeenAux (firstSeenAux [] (tokensOfTrace pre)) (tokensOfTrace rest) := by
      rw [htok, firstSeenAux_append]
    obtain ⟨extra, hext⟩ :=
      firstSeenAux_extends (tokensOfTrace rest) (firstSeenAux [] (tokensOfTrace pre))
    have hpreb : (firstSeenAux [] (tokensOfTrace pre)).length < 2 ^ 32 := by
      have hfull := hbound
      rw [hseen, hext] at hfull
      simp only [List.length_append] at hfull
      omega
    obtain ⟨hwp, _⟩ := runTrace_inv pre hpreb
    rw [hwp] at h
    rw [hw, hseen, hext, enum1_append]
    exact lookupW_append_left _ _ tok n h

theorem lookupChild_update_self : ∀ (cs : List (Char × Node)) (c : Char) (x : Node),
    (lookupChild cs c).isSome → lookupChild (updateChild cs c x) c = some x := by
  intro cs
  induction cs with
  | nil => intro c x h; simp [lookupChild] at h
  | cons p rest ih =>
    intro c x h
    cases p with
    | mk e nd =>
      by_cases he : e = c
      · subst he
        simp [updateChild, lookupChild]
      · have hne : ¬ c = e := fun hc => he hc.symm
        simp only [lookupChild, hne, if_false] at h
        simp only [updateChild, he, if_false, lookupChild, hne]
        exact ih c x h

theorem lookupChild_update_other : ∀ (cs : List (Char × Node)) (c d : Char) (x : Node),
    d ≠ c → lookupChild (updateChild cs c x) d = lookupChild cs d := by
  intro cs
  induction cs with
  | nil => intro c d x hd; simp [updateChild]
  | cons p rest ih =>
    intro c d x hd
    cases p with
    | mk e nd =>
      by_cases he : e = c
      · subst he
        simp only [updateChild, if_pos rfl, lookupChild, hd, if_false]
        exact ih e d x hd
      · simp only [updateChild, he, if_false, lookupChild]
        by_cases hde : d = e
        · simp [hde]
        · simp only [hde, if_false]
          exact ih c d x hd

theorem lookupChild_append : ∀ (cs ds : List (Char × Node)) (d : Char),
    lookupChild (cs ++ ds) d =
      match lookupChild cs d with
      | some y => some y
      | none => lookupChild ds d := by
  intro cs
  induction cs with
  | nil => intro ds d; simp [lookupChild]
  | cons p rest ih =>
    intro ds d
    cases p with
    | mk e nd =>
      by_cases hde : d = e
      · simp [lookupChild, hde]
      · simp only [List.cons_append, lookupChild, hde, if_false]
        exact ih ds d

theorem find_match_new : ∀ w : List Char, Node.find_match Node.new w = none := by
  intro w
  cases w with
  | nil => rfl
  | cons c rest => simp [Node.find_match, Node.new, Node.children, lookupChild]

theorem find_match_push : ∀ (t : List Char) (node : Node) (k : Nat) (w : List Char),
    Node.find_match (Node.push node t k) w =
      if w = t then some k else Node.find_match node w := by
  intro t
  induction t with
  | nil =>
    intro node k w
    cases node with
    | mk nm cs =>
      cases w with
      | nil => simp [Node.push, Node.find_match, Node.num]
      | cons d w2 =>
        simp [Node.push, Node.find_match, Node.children]
  | cons c t2 ih =>
    intro node k w
    cases node with
    | mk nm cs =>
      cases hlk : lookupChild cs c with
      | some child =>
        cases w with
        | nil =>
          simp [Node.push, hlk, Node.find_match, Node.num]
        | cons d w2 =>
          simp only [Node.push, hlk, Node.find_match, Node.children]
          by_cases hdc : d = c
          · subst hdc
            have hup : lookupChild (updateChild cs d (Node.push child t2 k)) d =
                some (Node.push child t2 k) :=
              lookupChild_update_self cs d _ (by simp [hlk])
            simp only [hup, hlk, ih child k w2]
            by_cases hw : w2 = t2
            · simp [hw]
            · simp only [hw, if_false, List.cons.injEq, true_and]
          · have hup := lookupChild_update_other cs c d (Node.push child t2 k) hdc
            simp only [hup]
            have hne : ¬ (d :: w2 = c :: t2) := by
              intro hcontra
              exact hdc (List.cons.injEq d w2 c t2 ▸ hcontra).1
            simp only [hne, if_false]
      | none =>
        cases w with
        | nil =>
          simp [Node.push, hlk, Node.find_match, Node.num]
        | cons d w2 =>
          simp only [Node.push, hlk, Node.find_match, Node.children]
          rw [lookupChild_append]
          by_cases hdc : d = c
          · subst hdc
            simp only [hlk, lookupChild, if_true]
            rw [ih Node.new k w2]
            by_cases hw : w2 = t2
            · simp [hw]
            · simp only [hw, if_false, find_match_new]
              have hne : ¬ (d :: w2 = d :: t2) := by
                intro hcontra
                exact hw (List.cons.injEq d w2 d t2 ▸ hcontra).2
              simp [hne, hlk]
          · have hne : ¬ (d :: w2 = c :: t2) := by
              intro hcontra
              exact hdc (List.cons.injEq d w2 c t2 ▸ hcontra).1
            simp only [hne, if_false]
            cases hcs : lookupChild cs d with
            | some y => simp
            | none =>
              simp only [lookupChild, hdc, if_false]

theorem serializeToken_coherent {m : Module} (t : List Char) (h : TrieCoherent m) :
    TrieCoherent (serializeToken m t).1 := by
  cases hlk : lookupW m.words_to_numbers t with
  | some v =>
    simp only [serializeToken, hlk]
    exact h
  | none =>
    simp only [serializeToken, hlk]
    intro tok n hn
    simp only [insertW, hlk, Option.isSome_none, Bool.false_eq_true, if_false] at hn
    rw [lookupW_append] at hn
    cases hold : lookupW m.words_to_numbers tok with
    | some v =>
      rw [hold] at hn
      simp only [Option.some.injEq] at hn
      subst hn
      have htok : tok ≠ t := by
        intro hc
        rw [hc, hlk] at hold
        exact Option.noConfusion hold
      rw [find_match_push, if_neg htok]
      exact h tok v hold
    | none =>
      rw [hold] at hn
      simp only [lookupW] at hn
      by_cases htok : tok = t
      · rw [if_pos htok] at hn
        simp only [Option.some.injEq] at hn
        subst htok
        rw [find_match_push, if_pos rfl, hn]
      · rw [if_neg htok] at hn
        exact Option.noConfusion hn

theorem serializeTokens_coherent : ∀ (ts : List (List Char)) (m : Module),
    TrieCoherent m → TrieCoherent (serializeTokens m ts).1 := by
  intro ts
  induction ts with
  | nil => intro m h; simpa [serializeTokens] using h
  | cons t rest ih =>
    intro m h
    simp only [serializeTokens]
    exact ih (serializeToken m t).1 (serializeToken_coherent t h)

/-- C3: the claim states that bulk_load (set_map_from) rebuilds the trie and
that afterwards every interned word is found in the trie with its id. On the
dictionary obtained by bulk-loading the single-entry map the word is in the
mapping with id one, yet the trie lookup returns none, because set_map_from
never touches the filter. -/
theorem claim_C3_counterexample :
    lookupW (Module.set_map_from Module.new [((['a'] : List Char), 1)]).words_to_numbers
      ['a'] = some 1 ∧
    Node.find_match (Module.set_map_from Module.new [((['a'] : List Char), 1)]).filter
      ['a'] = none := by
  constructor
  · rfl
  · rfl

/-- C3 amended: set_map_from replaces the word map and recomputes the
counter but leaves the trie exactly as it was, so the claimed coherence can
fail after a bulk load; coherence does hold on the encode path: it is true
of a fresh dictionary and preserved by every serialize call. -/
theorem claim_C3 :
    (∀ (m : Module) (mp : List (List Char × Nat)),
      (Module.set_map_from m mp).filter = m.filter ∧
      (Module.set_map_from m mp).words_to_numbers = mp ∧
      (Module.set_map_from m mp).last_available_number = maxNum mp) ∧
    (∀ (m : Module) (log : List Char),
      TrieCoherent m → TrieCoherent (Module.serialize m log).1) ∧
    TrieCoherent Module.new := by
  refine ⟨?_, ?_, ?_⟩
  · intro m mp
    exact ⟨rfl, rfl, rfl⟩
  · intro m log h
    exact serializeTokens_coherent (splitWS log) m h
  · intro tok n h
    simp [Module.new, lookupW] at h

theorem claim_C3_witness :
    Node.find_match (Module.serialize Module.new ['a', 'b']).1.filter ['a', 'b'] = some 1 := by
  have h := claim_C3.2.1 Module.new ['a', 'b'] claim_C3.2.2
  exact h ['a', 'b'] 1 (by decide)

theorem claim_C2_witness :
    lookupW (runTrace [['a'], ['b', ' ', 'a']]).words_to_numbers ['a'] = some 1 :=
  (claim_C2 [['a'], ['b', ' ', 'a']] (by decide)).2.2.2 [['a']] [['b', ' ', 'a']] ['a'] 1 rfl
    (by decide)

theorem claim_C9_witness :
    ∃ lines,
      Module.save_schema_to_file
        (Module.set_map_from Module.new [((['a', ' ', 'b'] : List Char), 1)]) =
        Except.ok lines ∧
      schemaLine ['a', ' ', 'b'] 1 ∈ lines := by
  obtain ⟨lines, hok, hmem⟩ :=
    claim_C9 (Module.set_map_from Module.new [((['a', ' ', 'b'] : List Char), 1)])
  exact ⟨lines, hok, hmem ['a', ' ', 'b'] 1 (by decide)⟩

end Scribe
